import Mathlib

/-!
# Verification of the feather server runtime core

Shallow embedding of the Rust sources of the repository:

* `feather/common/src/chunk_entities.rs` — the `ChunkEntities` spatial index
  and the per-tick maintenance system `update_chunk_entities`;
* `feather/common/src/entities/player.rs` — `HotbarSlot`;
* `feather/server/src/server.rs` — `Server::accept_new_players`,
  `Server::broadcast_nearby_with`;
* `crates/server/src/session.rs` — `hash_seed` and `VanillaSession::join`.

Machine integers become `Nat`/`Int` with explicit truncation where overflow
matters; hash maps become association lists with first-match lookup (hash maps
have unique keys, and all operations below touch only the first entry of a
key); fallible operations return `Except`.
-/

namespace FeatherSpec

/-! ## Coordinates

`Entity` handles are opaque stable identifiers (`ecs::Entity`); `Nat` suffices.
-/

abbrev Entity := Nat

abbrev ChunkPosition := Int × Int

/-- Modelled from the spec: `base::Position` / `libcraft::Position` is not under
`src/`.  Per the spec a chunk coordinate is "derived deterministically from a
world position by floor-division on a fixed cell size"; only the horizontal
integer coordinates matter to the claims. -/
structure Position where
  x : Int
  z : Int
deriving DecidableEq, Repr

/-- Modelled from the spec: `Position::chunk` floor-divides each horizontal
coordinate by the fixed cell size 16. -/
def Position.chunk (p : Position) : ChunkPosition := (Int.fdiv p.x 16, Int.fdiv p.z 16)

/-! ## The spatial index (`ChunkEntities`, chunk_entities.rs lines 15–50) -/

/-- Modelled from the spec: `utils::vec_remove_item` (utils crate, not under
`src/`) removes the first occurrence of the item from the vector, which is
exactly `List.erase`. -/
def vec_remove_item (v : List Entity) (e : Entity) : List Entity := v.erase e

/-- The backing `AHashMap<ChunkPosition, Vec<Entity>>` of `ChunkEntities`,
as an association list with first-match lookup. -/
abbrev BucketMap := List (ChunkPosition × List Entity)

/-- `map.get(&chunk)`. -/
def lookupBucket : BucketMap → ChunkPosition → Option (List Entity)
  | [], _ => none
  | (c, v) :: rest, c' => if c = c' then some v else lookupBucket rest c'

/-- `map.get_mut(&chunk)` followed by an in-place modification of the found
vector: the first entry for the key is rewritten, a missing key is a no-op. -/
def modifyBucket (f : List Entity → List Entity) : BucketMap → ChunkPosition → BucketMap
  | [], _ => []
  | (c, v) :: rest, c' =>
    if c = c' then (c, f v) :: rest else (c, v) :: modifyBucket f rest c'

/-- `map.entry(chunk).or_default().push(e)`. -/
def entryPush (m : BucketMap) (c : ChunkPosition) (e : Entity) : BucketMap :=
  if (lookupBucket m c).isSome then modifyBucket (fun v => v ++ [e]) m c
  else m ++ [(c, [e])]

/-- `ChunkEntities` (chunk_entities.rs line 17). -/
structure ChunkEntities where
  entities : BucketMap
deriving DecidableEq, Repr

/-- `ChunkEntities::entities_in_chunk` (lines 23–28): the bucket of the chunk,
`unwrap_or_default` giving the empty slice for a missing bucket. -/
def ChunkEntities.entities_in_chunk (self : ChunkEntities) (chunk : ChunkPosition) :
    List Entity :=
  (lookupBucket self.entities chunk).getD []

/-- `ChunkEntities::update` (lines 30–43): remove from the old bucket when one
is given (missing bucket is a no-op), then push onto the new bucket. -/
def ChunkEntities.update (self : ChunkEntities) (entity : Entity)
    (old_chunk : Option ChunkPosition) (new_chunk : ChunkPosition) : ChunkEntities :=
  let step1 : BucketMap :=
    match old_chunk with
    | some old => modifyBucket (fun v => vec_remove_item v entity) self.entities old
    | none => self.entities
  ⟨entryPush step1 new_chunk entity⟩

/-- `ChunkEntities::remove_entity` (lines 45–49). -/
def ChunkEntities.remove_entity (self : ChunkEntities) (entity : Entity)
    (chunk : ChunkPosition) : ChunkEntities :=
  ⟨modifyBucket (fun v => vec_remove_item v entity) self.entities chunk⟩

/-! ## The per-tick maintenance system (`update_chunk_entities`, lines 52–101)

The ECS world is modelled as an association list from entity handles to the
components the system touches: the `Position` component, the cached
`ChunkPosition` component, and the presence of this tick's
`EntityCreateEvent` / `EntityRemoveEvent` marker components.  The list order
is the (unspecified) query iteration order.
-/

structure EntityRec where
  position : Option Position
  chunk : Option ChunkPosition
  createEvent : Bool
  removeEvent : Bool
deriving DecidableEq, Repr

abbrev World := List (Entity × EntityRec)

structure Game where
  chunk_entities : ChunkEntities
  world : World
deriving DecidableEq, Repr

/-- First pass (lines 53–75): entities holding both a cached `ChunkPosition`
and a `Position` whose current chunk differs are moved between buckets and
their cached chunk is rewritten.  (The `ChunkCrossEvent`s pushed alongside are
not consumed by anything the claims mention, so they are not modelled.) -/
def chunkCrossPass : ChunkEntities → World → ChunkEntities × World
  | ce, [] => (ce, [])
  | ce, (e, rec) :: rest =>
    match rec.chunk, rec.position with
    | some old_chunk, some position =>
      if position.chunk ≠ old_chunk then
        let r := chunkCrossPass (ce.update e (some old_chunk) position.chunk) rest
        (r.1, (e, { rec with chunk := some position.chunk }) :: r.2)
      else
        let r := chunkCrossPass ce rest
        (r.1, (e, rec) :: r.2)
    | _, _ =>
      let r := chunkCrossPass ce rest
      (r.1, (e, rec) :: r.2)

/-- Second pass, index half (lines 77–85): every entity with an
`EntityCreateEvent` and a `Position` is pushed into the bucket of its chunk
(`update` with no old chunk) and its `(entity, chunk)` pair is collected. -/
def creationPass : ChunkEntities → World → ChunkEntities × List (Entity × ChunkPosition)
  | ce, [] => (ce, [])
  | ce, (e, rec) :: rest =>
    match rec.createEvent, rec.position with
    | true, some position =>
      let r := creationPass (ce.update e none position.chunk) rest
      (r.1, (e, position.chunk) :: r.2)
    | _, _ => creationPass ce rest

/-- The effect of the collected insertions on one entity's record. -/
def applyInsertionsTo (e : Entity) : List (Entity × ChunkPosition) → EntityRec → EntityRec
  | [], rec => rec
  | ec :: rest, rec =>
    applyInsertionsTo e rest (if ec.1 = e then { rec with chunk := some ec.2 } else rec)

/-- Second pass, component half (lines 86–89): `world.insert(entity, chunk)`
for each collected pair.  The source loops over the insertions performing one
point update each; folding every insertion over each entry is the same
pointwise update. -/
def insertChunkComponents (w : World) (ins : List (Entity × ChunkPosition)) : World :=
  w.map fun er => (er.1, applyInsertionsTo er.1 ins er.2)

/-- Third pass (lines 91–98): every entity with an `EntityRemoveEvent` and a
cached `ChunkPosition` is removed from its bucket. -/
def removalPass : ChunkEntities → World → ChunkEntities
  | ce, [] => ce
  | ce, (e, rec) :: rest =>
    match rec.removeEvent, rec.chunk with
    | true, some chunk => removalPass (ce.remove_entity e chunk) rest
    | _, _ => removalPass ce rest

/-- `update_chunk_entities` (lines 52–101): chunk-cross pass, creation pass,
component insertions, then removal pass, in source order. -/
def update_chunk_entities (game : Game) : Game :=
  let r1 := chunkCrossPass game.chunk_entities game.world
  let r2 := creationPass r1.1 r1.2
  let world2 := insertChunkComponents r1.2 r2.2
  { chunk_entities := removalPass r2.1 world2, world := world2 }

/-- What the chunk-cross pass does to one record: the cached chunk is synced to
the chunk of the current position whenever both components are present. -/
def syncRec (rec : EntityRec) : EntityRec :=
  match rec.chunk, rec.position with
  | some _, some p => { rec with chunk := some p.chunk }
  | _, _ => rec

/-! ### Invariants over the index and the world -/

/-- Entity handles are unique in the world (guaranteed by the ECS). -/
def WFWorld (w : World) : Prop := (w.map Prod.fst).Nodup

/-- Every live entity with a known (cached) chunk sits exactly once in that
chunk's bucket and in no other bucket. -/
def bucketsExact (ce : ChunkEntities) (w : World) : Prop :=
  ∀ e rec c, (e, rec) ∈ w → rec.chunk = some c →
    (ce.entities_in_chunk c).count e = 1 ∧
    ∀ c', c' ≠ c → e ∉ ce.entities_in_chunk c'

/-- Every handle found in a bucket belongs to a live entity whose cached chunk
is that bucket's chunk. -/
def noOrphans (ce : ChunkEntities) (w : World) : Prop :=
  ∀ e c, e ∈ ce.entities_in_chunk c → ∃ rec, (e, rec) ∈ w ∧ rec.chunk = some c

def IndexInv (g : Game) : Prop :=
  WFWorld g.world ∧ bucketsExact g.chunk_entities g.world ∧ noOrphans g.chunk_entities g.world

/-- The cached chunk of every entity holding both components agrees with its
current position. -/
def synced (w : World) : Prop :=
  ∀ e rec, (e, rec) ∈ w → ∀ p c, rec.position = some p → rec.chunk = some c → c = p.chunk

/-- No creation or removal events are pending this tick. -/
def eventFree (w : World) : Prop :=
  ∀ e rec, (e, rec) ∈ w → rec.createEvent = false ∧ rec.removeEvent = false

/-- First-match lookup of an entity's new position in a batch of updates. -/
def lookupPos : List (Entity × Position) → Entity → Option Position
  | [], _ => none
  | (e, p) :: rest, e' => if e = e' then some p else lookupPos rest e'

/-- The position-mutating systems that run before the maintenance system: a
batch of writes to the `Position` component. -/
def applyPositions (g : Game) (u : List (Entity × Position)) : Game :=
  { g with
    world := g.world.map fun er =>
      match lookupPos u er.1 with
      | some p => (er.1, { er.2 with position := some p })
      | none => er }

/-- A sequence of ticks: each tick writes a batch of positions and then runs
the maintenance system once. -/
def runTicks (g : Game) (us : List (List (Entity × Position))) : Game :=
  us.foldl (fun g' u => update_chunk_entities (applyPositions g' u)) g

/-! ## `HotbarSlot` (entities/player.rs lines 19–40) -/

structure HotbarSlot where
  val : Nat
deriving DecidableEq, Repr

/-- `HotbarSlot::new` (lines 24–26): no validation. -/
def HotbarSlot.new (id : Nat) : HotbarSlot := ⟨id⟩

/-- `HotbarSlot::get` (lines 28–30). -/
def HotbarSlot.get (s : HotbarSlot) : Nat := s.val

/-- `HotbarSlot::set` (lines 32–39): `bail!` on ids above 8, otherwise store.
The pair carries the `SysResult` and the (possibly unchanged) stored state. -/
def HotbarSlot.set (s : HotbarSlot) (id : Nat) : Except String Unit × HotbarSlot :=
  if 8 < id then (Except.error "invalid hotbar slot id", s)
  else (Except.ok (), ⟨id⟩)

/-! ## The connection registry and the dispatcher (server.rs)

`Clients`, `Client` and `ChunkSubscriptions` live in files of this repository
that are not under `src/`; they are modelled from the spec (§3, §4.2, §6).
-/

abbrev ClientId := Nat

/-- Modelled from the spec: the authentication identity (`Uuid`) is an opaque
stable identifier. -/
abbrev Uuid := Nat

abbrev EntityWorld := Nat

abbrev EntityDimension := String

structure NewPlayer where
  uuid : Uuid
  username : String
deriving DecidableEq, Repr

/-- Modelled from the spec: a `Client` owns the connection state; `disconnect`
delivers the given notice to the peer and marks the connection closed (actual
removal from the registry happens elsewhere).  Only the identity, the username,
the closed flag and the received notices matter to the claims. -/
structure Client where
  uuid : Uuid
  username : String
  disconnected : Bool
  messages : List String
deriving DecidableEq, Repr

def Client.disconnect (c : Client) (reason : String) : Client :=
  { c with disconnected := true, messages := c.messages ++ [reason] }

/-- `Client::new(player, options)`, as far as the claims see it. -/
def Client.ofNewPlayer (p : NewPlayer) : Client := ⟨p.uuid, p.username, false, []⟩

/-- Modelled from the spec §4.2: the registry maps small stable client ids to
connections; `insert` hands out a fresh id never reused while live. -/
structure Clients where
  nextId : Nat
  slots : List (ClientId × Client)
deriving DecidableEq, Repr

def Clients.insert (cs : Clients) (c : Client) : ClientId × Clients :=
  (cs.nextId, ⟨cs.nextId + 1, cs.slots ++ [(cs.nextId, c)]⟩)

def lookupClient : List (ClientId × Client) → ClientId → Option Client
  | [], _ => none
  | (i, c) :: rest, id => if i = id then some c else lookupClient rest id

def Clients.get (cs : Clients) (id : ClientId) : Option Client :=
  lookupClient cs.slots id

/-- `clients.iter_mut().find(|x| x.uuid() == uuid)` followed by
`old_client.disconnect(reason)`: the first registered client with the given
identity receives the notice; the rest are untouched. -/
def disconnectMatching : List (ClientId × Client) → Uuid → String → List (ClientId × Client)
  | [], _, _ => []
  | (i, c) :: rest, uuid, reason =>
    if c.uuid = uuid then (i, c.disconnect reason) :: rest
    else (i, c) :: disconnectMatching rest uuid reason

structure DimensionChunkPosition where
  world : EntityWorld
  dimension : EntityDimension
  chunk : ChunkPosition
deriving DecidableEq, Repr

def lookupSubs :
    List (DimensionChunkPosition × List ClientId) → DimensionChunkPosition →
      Option (List ClientId)
  | [], _ => none
  | (k, v) :: rest, key => if k = key then some v else lookupSubs rest key

/-- Modelled from the spec §6: the subscription registry exposes exactly one
query, `subscriptions_for (world, dimension, chunk)`, yielding the set of
client ids subscribed to that cell (empty when the cell is unknown). -/
structure ChunkSubscriptions where
  subs : List (DimensionChunkPosition × List ClientId)
deriving DecidableEq, Repr

def ChunkSubscriptions.subscriptions_for (cs : ChunkSubscriptions)
    (key : DimensionChunkPosition) : List ClientId :=
  (lookupSubs cs.subs key).getD []

/-- The parts of `Server` the verified operations touch: the registry, the
pending contents of the bounded new-player channel, and the subscription
registry. -/
structure Server where
  clients : Clients
  new_players : List NewPlayer
  chunk_subscriptions : ChunkSubscriptions
deriving DecidableEq, Repr

/-- `Server::create_client` (server.rs lines 104–108). -/
def Server.create_client (srv : Server) (p : NewPlayer) : ClientId × Server :=
  let r := srv.clients.insert (Client.ofNewPlayer p)
  (r.1, { srv with clients := r.2 })

/-- The drain loop of `accept_new_players`: for each descriptor, force-notify
the first existing connection with the same identity, then create the client
and record its id. -/
def acceptLoop : Server → List NewPlayer → List ClientId × Server
  | srv, [] => ([], srv)
  | srv, p :: rest =>
    let srv1 : Server :=
      { srv with clients := ⟨srv.clients.nextId,
          disconnectMatching srv.clients.slots p.uuid "Logged in from another location!"⟩ }
    let r := srv1.create_client p
    let rr := acceptLoop r.2 rest
    (r.1 :: rr.1, rr.2)

/-- `Server::accept_new_players` (server.rs lines 84–94): non-blocking drain of
the new-player channel. -/
def Server.accept_new_players (srv : Server) : List ClientId × Server :=
  acceptLoop { srv with new_players := [] } srv.new_players

/-- The invocation trace of `Server::broadcast_nearby_with` (server.rs lines
121–140), each invocation tagged with the subscribed client id it came from:
for each id subscribed to the chunk of the position, the callback fires on the
registered client when one is live and the id is silently skipped otherwise. -/
def broadcastNearbyTrace (srv : Server) (world : EntityWorld)
    (dimension : EntityDimension) (position : Position) : List (ClientId × Client) :=
  (srv.chunk_subscriptions.subscriptions_for ⟨world, dimension, position.chunk⟩).filterMap
    fun id => (srv.clients.get id).map fun c => (id, c)

/-- `Server::broadcast_nearby_with` as the sequence of clients the callback is
invoked on, in order. -/
def Server.broadcast_nearby_with (srv : Server) (world : EntityWorld)
    (dimension : EntityDimension) (position : Position) : List Client :=
  (srv.chunk_subscriptions.subscriptions_for ⟨world, dimension, position.chunk⟩).filterMap
    fun id => srv.clients.get id

/-! ## `hash_seed` and the join message (crates/server/src/session.rs)

`hash_seed` (lines 122–130) feeds the big-endian bytes of the seed to SHA-256
(the `sha2` crate, modelled below following FIPS 180-4) and reads the first
eight digest bytes back as a big-endian `u64`.
-/

/-- Truncation to a 32-bit word. -/
def w32 (n : Nat) : Nat := n % 4294967296

def rotr32 (r x : Nat) : Nat := w32 ((x >>> r) ||| (x <<< (32 - r)))

def bsig0 (x : Nat) : Nat := rotr32 2 x ^^^ rotr32 13 x ^^^ rotr32 22 x

def bsig1 (x : Nat) : Nat := rotr32 6 x ^^^ rotr32 11 x ^^^ rotr32 25 x

def ssig0 (x : Nat) : Nat := rotr32 7 x ^^^ rotr32 18 x ^^^ (x >>> 3)

def ssig1 (x : Nat) : Nat := rotr32 17 x ^^^ rotr32 19 x ^^^ (x >>> 10)

def chF (x y z : Nat) : Nat := (x &&& y) ^^^ ((x ^^^ 4294967295) &&& z)

def majF (x y z : Nat) : Nat := (x &&& y) ^^^ (x &&& z) ^^^ (y &&& z)

def sha256K : List Nat :=
  [1116352408, 1899447441, 3049323471, 3921009573, 961987163, 1508970993,
   2453635748, 2870763221, 3624381080, 310598401, 607225278, 1426881987,
   1925078388, 2162078206, 2614888103, 3248222580, 3835390401, 4022224774,
   264347078, 604807628, 770255983, 1249150122, 1555081692, 1996064986,
   2554220882, 2821834349, 2952996808, 3210313671, 3336571891, 3584528711,
   113926993, 338241895, 666307205, 773529912, 1294757372, 1396182291,
   1695183700, 1986661051, 2177026350, 2456956037, 2730485921, 2820302411,
   3259730800, 3345764771, 3516065817, 3600352804, 4094571909, 275423344,
   430227734, 506948616, 659060556, 883997877, 958139571, 1322822218,
   1537002063, 1747873779, 1955562222, 2024104815, 2227730452, 2361852424,
   2428436474, 2756734187, 3204031479, 3329325298]

def sha256H0 : List Nat :=
  [1779033703, 3144134277, 1013904242, 2773480762, 1359893119, 2600822924,
   528734635, 1541459225]

/-- One step of the message-schedule extension; the accumulator holds the
schedule so far in reverse. -/
def scheduleStep (rw : List Nat) : Nat :=
  w32 (ssig1 (rw.getD 1 0) + rw.getD 6 0 + ssig0 (rw.getD 14 0) + rw.getD 15 0)

def extendSchedule : Nat → List Nat → List Nat
  | 0, rw => rw
  | n + 1, rw => extendSchedule n (scheduleStep rw :: rw)

/-- One compression round on the state `[a, b, c, d, e, f, g, h]`. -/
def sha256Round (st : List Nat) (kw : Nat × Nat) : List Nat :=
  match st with
  | [a, b, c, d, e, f, g, h] =>
    let t1 := w32 (h + bsig1 e + chF e f g + kw.1 + kw.2)
    let t2 := w32 (bsig0 a + majF a b c)
    [w32 (t1 + t2), a, b, c, w32 (d + t1), e, f, g]
  | other => other

def sha256Compress (h : List Nat) (block : List Nat) : List Nat :=
  let ws := (extendSchedule 48 block.reverse).reverse
  let st := (sha256K.zip ws).foldl sha256Round h
  (h.zip st).map fun xy => w32 (xy.1 + xy.2)

def bytesToWords : List Nat → List Nat
  | b0 :: b1 :: b2 :: b3 :: rest =>
    (((b0 * 256 + b1) * 256 + b2) * 256 + b3) :: bytesToWords rest
  | _ => []

def wordToBytes (w : Nat) : List Nat :=
  [w / 16777216 % 256, w / 65536 % 256, w / 256 % 256, w % 256]

def chunkBlocksAux : Nat → List Nat → List (List Nat)
  | 0, _ => []
  | n + 1, bytes => bytes.take 64 :: chunkBlocksAux n (bytes.drop 64)

/-- Split a byte string into 64-byte blocks (the padded message length is
always a multiple of 64). -/
def chunkBlocks (bytes : List Nat) : List (List Nat) :=
  chunkBlocksAux ((bytes.length + 63) / 64) bytes

def u64ToBeBytes (n : Nat) : List Nat :=
  [n / 72057594037927936 % 256, n / 281474976710656 % 256, n / 1099511627776 % 256,
   n / 4294967296 % 256, n / 16777216 % 256, n / 65536 % 256, n / 256 % 256, n % 256]

/-- FIPS 180-4 padding: a 0x80 byte, zeros up to 56 mod 64, then the bit
length as a big-endian 64-bit integer. -/
def padMessage (m : List Nat) : List Nat :=
  m ++ 128 :: List.replicate ((119 - m.length % 64) % 64) 0 ++
    u64ToBeBytes (8 * m.length % 18446744073709551616)

def sha256 (m : List Nat) : List Nat :=
  (((chunkBlocks (padMessage m)).foldl
      (fun h block => sha256Compress h (bytesToWords block)) sha256H0).map wordToBytes).flatten

/-- `hash_seed` (session.rs lines 122–130): SHA-256 over the big-endian bytes
of the seed, truncated to the first eight digest bytes read big-endian. -/
def hash_seed (seed : Nat) : Nat :=
  ((sha256 (u64ToBeBytes (seed % 18446744073709551616))).take 8).foldl
    (fun acc b => acc * 256 + b) 0

inductive Gamemode
  | survival
  | creative
  | adventure
  | spectator
deriving DecidableEq, Repr

inductive LevelGeneratorType
  | defaultGen
  | flat
  | largeBiomes
  | amplified
  | buffet
deriving DecidableEq, Repr

/-- Modelled from the spec: the two static world-definition assets are NBT
documents loaded from asset files outside the sources; their content is
irrelevant to the claims. -/
structure Nbt where
  blob : List Nat
deriving DecidableEq, Repr

def dimension_codec_asset : Nbt := ⟨[]⟩

def dimension_asset : Nbt := ⟨[]⟩

structure NetworkId where
  val : Int
deriving DecidableEq, Repr

/-- The `JoinGame` packet of session.rs lines 101–117. -/
structure JoinGame where
  entity_id : Int
  is_hardcore : Bool
  gamemode : Gamemode
  previous_gamemode : Nat
  world_names : List String
  dimension_codec : Nbt
  dimension : Nbt
  world_name : String
  hashed_seed : Nat
  max_players : Int
  view_distance : Int
  reduced_debug_info : Bool
  enable_respawn_screen : Bool
  is_debug : Bool
  is_flat : Bool
deriving DecidableEq, Repr

/-- `VanillaSession::join` (session.rs lines 81–120). -/
def VanillaSession.join (network_id : NetworkId) (gamemode : Gamemode) (seed : Nat)
    (max_players : Nat) (view_distance : Nat) (level_type : LevelGeneratorType) :
    JoinGame :=
  { entity_id := network_id.val
    is_hardcore := false
    gamemode := gamemode
    previous_gamemode := 255
    world_names := ["world"]
    dimension_codec := dimension_codec_asset
    dimension := dimension_asset
    world_name := "world"
    hashed_seed := hash_seed seed
    max_players := (max_players : Int)
    view_distance := (view_distance : Int)
    reduced_debug_info := false
    enable_respawn_screen := true
    is_debug := false
    is_flat := decide (level_type = LevelGeneratorType.flat) }

/-! ## Bucket-level lemmas -/

theorem lookupBucket_modifyBucket_eq (f : List Entity → List Entity) (m : BucketMap)
    (c : ChunkPosition) :
    lookupBucket (modifyBucket f m c) c = (lookupBucket m c).map f := by
  induction m with
  | nil => rfl
  | cons hd rest ih =>
    obtain ⟨c0, v0⟩ := hd
    by_cases h : c0 = c
    · simp [modifyBucket, lookupBucket, h]
    · simp [modifyBucket, lookupBucket, h, ih]

theorem lookupBucket_modifyBucket_ne (f : List Entity → List Entity) (m : BucketMap)
    (c c' : ChunkPosition) (h : c' ≠ c) :
    lookupBucket (modifyBucket f m c) c' = lookupBucket m c' := by
  induction m with
  | nil => rfl
  | cons hd rest ih =>
    obtain ⟨c0, v0⟩ := hd
    by_cases h0 : c0 = c
    · subst h0
      have hne : ¬ c0 = c' := fun hh => h (hh ▸ rfl)
      simp [modifyBucket, lookupBucket, hne]
    · by_cases h1 : c0 = c'
      · subst h1
        simp [modifyBucket, lookupBucket, h0, lookupBucket, h]
      · simp [modifyBucket, lookupBucket, h0, h1, ih]

theorem lookupBucket_append_of_none (m m' : BucketMap) (c : ChunkPosition)
    (h : lookupBucket m c = none) :
    lookupBucket (m ++ m') c = lookupBucket m' c := by
  induction m with
  | nil => rfl
  | cons hd rest ih =>
    obtain ⟨c0, v0⟩ := hd
    by_cases h0 : c0 = c
    · simp [lookupBucket, h0] at h
    · simp [lookupBucket, h0] at h ⊢
      exact ih h

theorem lookupBucket_append_of_some (m m' : BucketMap) (c : ChunkPosition)
    (v : List Entity) (h : lookupBucket m c = some v) :
    lookupBucket (m ++ m') c = some v := by
  induction m with
  | nil => simp [lookupBucket] at h
  | cons hd rest ih =>
    obtain ⟨c0, v0⟩ := hd
    by_cases h0 : c0 = c
    · simp [lookupBucket, h0] at h ⊢
      exact h
    · simp [lookupBucket, h0] at h ⊢
      exact ih h

/-- `entities_in_chunk` on a cons cell of the backing map. -/
theorem entities_in_cons (c0 : ChunkPosition) (v : List Entity) (rest : BucketMap)
    (c : ChunkPosition) :
    ChunkEntities.entities_in_chunk ⟨(c0, v) :: rest⟩ c =
      if c0 = c then v else ChunkEntities.entities_in_chunk ⟨rest⟩ c := by
  by_cases h : c0 = c <;> simp [ChunkEntities.entities_in_chunk, lookupBucket, h]

theorem entities_in_entryPush_self (m : BucketMap) (c : ChunkPosition) (e : Entity) :
    ChunkEntities.entities_in_chunk ⟨entryPush m c e⟩ c =
      ChunkEntities.entities_in_chunk ⟨m⟩ c ++ [e] := by
  unfold entryPush
  rcases hl : lookupBucket m c with _ | v
  · simp [ChunkEntities.entities_in_chunk, hl, lookupBucket_append_of_none m _ c hl,
      lookupBucket]
  · simp [ChunkEntities.entities_in_chunk, hl, lookupBucket_modifyBucket_eq]

theorem entities_in_entryPush_ne (m : BucketMap) (c c' : ChunkPosition) (e : Entity)
    (h : c' ≠ c) :
    ChunkEntities.entities_in_chunk ⟨entryPush m c e⟩ c' =
      ChunkEntities.entities_in_chunk ⟨m⟩ c' := by
  unfold entryPush
  rcases hl : lookupBucket m c with _ | v
  · rcases hl' : lookupBucket m c' with _ | v'
    · have hne : ¬ c = c' := fun hh => h hh.symm
      simp [ChunkEntities.entities_in_chunk, hl, hl',
        lookupBucket_append_of_none m _ c' hl', lookupBucket, hne]
    · simp [ChunkEntities.entities_in_chunk, hl, hl',
        lookupBucket_append_of_some m _ c' v' hl']
  · simp [ChunkEntities.entities_in_chunk, hl, lookupBucket_modifyBucket_ne _ _ _ _ h]

/-- Full pointwise characterisation of `ChunkEntities::update` with an old
chunk: the old bucket loses the first occurrence of the entity, the new bucket
gains it at the end, all other buckets are untouched. -/
theorem entities_in_update_some (s : ChunkEntities) (e : Entity)
    (old new : ChunkPosition) (c : ChunkPosition) :
    (s.update e (some old) new).entities_in_chunk c =
      (if c = old then (s.entities_in_chunk c).erase e else s.entities_in_chunk c) ++
        (if c = new then [e] else []) := by
  unfold ChunkEntities.update
  have hmid : ∀ c', ChunkEntities.entities_in_chunk
      ⟨modifyBucket (fun v => vec_remove_item v e) s.entities old⟩ c' =
      if c' = old then (s.entities_in_chunk c').erase e else s.entities_in_chunk c' := by
    intro c'
    by_cases h : c' = old
    · subst h
      simp only [ChunkEntities.entities_in_chunk, lookupBucket_modifyBucket_eq, if_pos rfl]
      rcases hl : lookupBucket s.entities c' with _ | v <;> simp [vec_remove_item, hl]
    · simp [ChunkEntities.entities_in_chunk, lookupBucket_modifyBucket_ne _ _ _ _ h, h]
  by_cases hnew : c = new
  · subst hnew
    rw [entities_in_entryPush_self]
    rw [hmid, if_pos rfl]
  · rw [entities_in_entryPush_ne _ _ _ _ hnew, hmid, if_neg hnew, List.append_nil]

/-- Pointwise characterisation of `ChunkEntities::update` without an old chunk. -/
theorem entities_in_update_none (s : ChunkEntities) (e : Entity)
    (new c : ChunkPosition) :
    (s.update e none new).entities_in_chunk c =
      s.entities_in_chunk c ++ (if c = new then [e] else []) := by
  unfold ChunkEntities.update
  by_cases hnew : c = new
  · subst hnew
    rw [entities_in_entryPush_self, if_pos rfl]
  · rw [entities_in_entryPush_ne _ _ _ _ hnew, if_neg hnew, List.append_nil]

/-- Pointwise characterisation of `ChunkEntities::remove_entity`. -/
theorem entities_in_remove (s : ChunkEntities) (e : Entity)
    (chunk c : ChunkPosition) :
    (s.remove_entity e chunk).entities_in_chunk c =
      if c = chunk then (s.entities_in_chunk c).erase e else s.entities_in_chunk c := by
  unfold ChunkEntities.remove_entity
  by_cases h : c = chunk
  · subst h
    simp only [ChunkEntities.entities_in_chunk, lookupBucket_modifyBucket_eq, if_pos rfl]
    rcases hl : lookupBucket s.entities c with _ | v <;> simp [vec_remove_item, hl]
  · simp [ChunkEntities.entities_in_chunk, lookupBucket_modifyBucket_ne _ _ _ _ h, h]

theorem modifyBucket_eq_self (f : List Entity → List Entity) (m : BucketMap)
    (c : ChunkPosition) (h : ∀ v, lookupBucket m c = some v → f v = v) :
    modifyBucket f m c = m := by
  induction m with
  | nil => rfl
  | cons hd rest ih =>
    obtain ⟨c0, v0⟩ := hd
    by_cases h0 : c0 = c
    · have := h v0 (by simp [lookupBucket, h0])
      simp [modifyBucket, h0, this]
    · simp only [modifyBucket, if_neg h0, List.cons.injEq, true_and]
      exact ih (fun v hv => h v (by simp [lookupBucket, h0, hv]))

/-! ## C9, C4, C6: the index operations -/

/-- C9: for every index state and chunk, `entities_in_chunk` never fails — it
returns the bucket itself when one exists and the empty collection when none
does, and (being a pure function of the state) mutates nothing. -/
theorem entities_in_chunk_total (s : ChunkEntities) (c : ChunkPosition) :
    (lookupBucket s.entities c = none → s.entities_in_chunk c = []) ∧
    (∀ v, lookupBucket s.entities c = some v → s.entities_in_chunk c = v) := by
  constructor
  · intro h
    simp [ChunkEntities.entities_in_chunk, h]
  · intro v h
    simp [ChunkEntities.entities_in_chunk, h]

theorem entities_in_chunk_total_witness :
    ChunkEntities.entities_in_chunk ⟨[(((0 : Int), (0 : Int)), [1, 2])]⟩ (0, 0) = [1, 2] ∧
    ChunkEntities.entities_in_chunk ⟨[(((0 : Int), (0 : Int)), [1, 2])]⟩ (5, 5) = [] :=
  ⟨(entities_in_chunk_total ⟨[((0, 0), [1, 2])]⟩ (0, 0)).2 [1, 2] (by decide),
   (entities_in_chunk_total ⟨[((0, 0), [1, 2])]⟩ (5, 5)).1 (by decide)⟩

/-- C4 counterexample: `ChunkEntities::update` with `old == new` is *not* a
no-op on the index — starting from the empty index it adds the entity to the
bucket. -/
theorem update_same_chunk_not_noop :
    (ChunkEntities.update ⟨[]⟩ 1 (some ((0 : Int), (0 : Int))) (0, 0)).entities_in_chunk (0, 0) ≠
      ChunkEntities.entities_in_chunk ⟨[]⟩ (0, 0) := by
  decide

/-- C4 (amended): with `old ≠ new`, `update` removes the first occurrence of
the entity from the old bucket (a no-op when absent or when the bucket does not
exist), appends it to the new bucket, and leaves every other bucket unchanged.
With `old = new` it is *not* a no-op: the bucket loses the first occurrence of
the entity and gains it back at the end (adding it when it was absent), and
every other bucket is unchanged. -/
theorem note_position_change_semantics (s : ChunkEntities) (e : Entity)
    (old new : ChunkPosition) :
    (old ≠ new →
      (s.update e (some old) new).entities_in_chunk old = (s.entities_in_chunk old).erase e ∧
      (s.update e (some old) new).entities_in_chunk new = s.entities_in_chunk new ++ [e] ∧
      ∀ c, c ≠ old → c ≠ new →
        (s.update e (some old) new).entities_in_chunk c = s.entities_in_chunk c) ∧
    ((s.update e (some old) old).entities_in_chunk old =
        (s.entities_in_chunk old).erase e ++ [e] ∧
      ∀ c, c ≠ old →
        (s.update e (some old) old).entities_in_chunk c = s.entities_in_chunk c) := by
  constructor
  · intro hne
    have hne' : new ≠ old := Ne.symm hne
    refine ⟨?_, ?_, ?_⟩
    · rw [entities_in_update_some]
      simp [hne, hne']
    · rw [entities_in_update_some]
      simp [hne, hne']
    · intro c hco hcn
      rw [entities_in_update_some]
      simp [hco, hcn]
  · constructor
    · rw [entities_in_update_some]
      simp
    · intro c hco
      rw [entities_in_update_some]
      simp [hco]

theorem note_position_change_semantics_witness :
    (ChunkEntities.update ⟨[(((0 : Int), (0 : Int)), [1, 2]), ((1, 0), [3])]⟩ 1
        (some (0, 0)) (1, 0)).entities_in_chunk (0, 0) =
      (ChunkEntities.entities_in_chunk ⟨[(((0 : Int), (0 : Int)), [1, 2]), ((1, 0), [3])]⟩
          (0, 0)).erase 1 ∧
    (ChunkEntities.update ⟨[(((0 : Int), (0 : Int)), [1, 2]), ((1, 0), [3])]⟩ 1
        (some (0, 0)) (1, 0)).entities_in_chunk (1, 0) =
      ChunkEntities.entities_in_chunk ⟨[(((0 : Int), (0 : Int)), [1, 2]), ((1, 0), [3])]⟩
          (1, 0) ++ [1] := by
  have h := (note_position_change_semantics ⟨[((0, 0), [1, 2]), ((1, 0), [3])]⟩ 1
    (0, 0) (1, 0)).1 (by decide)
  exact ⟨h.1, h.2.1⟩

/-- C6 counterexample: `remove_entity` erases only the first occurrence, so on
an index state whose bucket holds the entity twice the entity is still present
afterwards — the claim's "for every index state" fails. -/
theorem note_removed_duplicate_counterexample :
    1 ∈ (ChunkEntities.remove_entity ⟨[(((0 : Int), (0 : Int)), [1, 1])]⟩ 1
        (0, 0)).entities_in_chunk (0, 0) := by
  decide

/-- C6 (amended): after `remove_entity e c`, the entity is excluded from the
bucket of `c` provided it occurred there at most once (which the maintained
index invariant guarantees); every other bucket is unchanged; and the whole
call is a no-op on the state when the entity is absent from that bucket. -/
theorem note_removed_semantics (s : ChunkEntities) (e : Entity) (c : ChunkPosition) :
    ((s.entities_in_chunk c).count e ≤ 1 → e ∉ (s.remove_entity e c).entities_in_chunk c) ∧
    (∀ c', c' ≠ c → (s.remove_entity e c).entities_in_chunk c' = s.entities_in_chunk c') ∧
    (e ∉ s.entities_in_chunk c → s.remove_entity e c = s) := by
  refine ⟨?_, ?_, ?_⟩
  · intro hle
    rw [entities_in_remove, if_pos rfl]
    have h1 : ((s.entities_in_chunk c).erase e).count e =
        (s.entities_in_chunk c).count e - 1 := List.count_erase_self e _
    have h2 : ((s.entities_in_chunk c).erase e).count e = 0 := by omega
    exact List.count_eq_zero.mp h2
  · intro c' hne
    rw [entities_in_remove, if_neg hne]
  · intro h
    obtain ⟨m⟩ := s
    have hm : modifyBucket (fun v => vec_remove_item v e) m c = m := by
      apply modifyBucket_eq_self
      intro v hv
      have hvv : ChunkEntities.entities_in_chunk ⟨m⟩ c = v := by
        simp [ChunkEntities.entities_in_chunk, hv]
      rw [hvv] at h
      simp [vec_remove_item, List.erase_of_not_mem h]
    simp [ChunkEntities.remove_entity, hm]

theorem note_removed_semantics_witness :
    (1 ∉ (ChunkEntities.remove_entity ⟨[(((0 : Int), (0 : Int)), [1, 2]), ((1, 0), [3])]⟩ 1
        (0, 0)).entities_in_chunk (0, 0)) ∧
    (ChunkEntities.remove_entity ⟨[(((0 : Int), (0 : Int)), [1, 2]), ((1, 0), [3])]⟩ 1
        (0, 0)).entities_in_chunk (1, 0) =
      ChunkEntities.entities_in_chunk ⟨[(((0 : Int), (0 : Int)), [1, 2]), ((1, 0), [3])]⟩
        (1, 0) ∧
    ChunkEntities.remove_entity ⟨[(((0 : Int), (0 : Int)), [1, 2]), ((1, 0), [3])]⟩ 9
        (0, 0) = ⟨[(((0 : Int), (0 : Int)), [1, 2]), ((1, 0), [3])]⟩ :=
  ⟨(note_removed_semantics ⟨[((0, 0), [1, 2]), ((1, 0), [3])]⟩ 1 (0, 0)).1 (by decide),
   (note_removed_semantics ⟨[((0, 0), [1, 2]), ((1, 0), [3])]⟩ 1 (0, 0)).2.1 (1, 0)
     (by decide),
   (note_removed_semantics ⟨[((0, 0), [1, 2]), ((1, 0), [3])]⟩ 9 (0, 0)).2.2 (by decide)⟩

/-! ## C7, C10: `HotbarSlot` -/

/-- C7: `HotbarSlot::set` returns an explicit error for every id above 8 and
leaves the stored value unchanged in that case — it never clamps; for every id
up to 8 it succeeds and the stored value becomes the id. -/
theorem hotbar_set_validates (s : HotbarSlot) (id : Nat) :
    (8 < id → HotbarSlot.set s id = (Except.error "invalid hotbar slot id", s)) ∧
    (id ≤ 8 → HotbarSlot.set s id = (Except.ok (), ⟨id⟩)) := by
  constructor
  · intro h
    simp [HotbarSlot.set, h]
  · intro h
    simp [HotbarSlot.set, Nat.not_lt.mpr h]

theorem hotbar_set_validates_witness :
    HotbarSlot.set ⟨3⟩ 9 = (Except.error "invalid hotbar slot id", ⟨3⟩) ∧
    HotbarSlot.set ⟨3⟩ 5 = (Except.ok (), ⟨5⟩) :=
  ⟨(hotbar_set_validates ⟨3⟩ 9).1 (by decide), (hotbar_set_validates ⟨3⟩ 5).2 (by decide)⟩

/-- C10: `HotbarSlot::new` performs no range validation — for every id,
including ids above 8, construction succeeds with `get` returning the id, even
though `set` rejects the very same value. -/
theorem hotbar_new_unchecked (id : Nat) :
    (HotbarSlot.new id).get = id ∧
    (8 < id → (HotbarSlot.new id).get = id ∧
      (HotbarSlot.set (HotbarSlot.new 0) id).1 = Except.error "invalid hotbar slot id") := by
  refine ⟨rfl, fun h => ⟨rfl, ?_⟩⟩
  simp [HotbarSlot.set, HotbarSlot.new, h]

theorem hotbar_new_unchecked_witness :
    (HotbarSlot.new 9).get = 9 ∧
    (HotbarSlot.set (HotbarSlot.new 0) 9).1 = Except.error "invalid hotbar slot id" :=
  ⟨(hotbar_new_unchecked 9).1, ((hotbar_new_unchecked 9).2 (by decide)).2⟩

/-! ## C8: the seed hash -/

/-- C8: `hash_seed` is deterministic; there is a seed (66, the one the
repository's own test uses) whose hash differs from the raw seed; and the
`hashed_seed` field of every join message is `hash_seed` of the true seed,
never the raw seed itself. -/
theorem hash_seed_deterministic_and_hiding (s t : Nat) (h : s = t) :
    hash_seed s = hash_seed t ∧
    hash_seed 66 ≠ 66 ∧
    ∀ (nid : NetworkId) (gm : Gamemode) (seed mp vd : Nat)
      (ltype : LevelGeneratorType),
      (VanillaSession.join nid gm seed mp vd ltype).hashed_seed = hash_seed seed := by
  refine ⟨by rw [h], by decide, fun _ _ _ _ _ _ => rfl⟩

theorem hash_seed_deterministic_and_hiding_witness :
    hash_seed 5 = hash_seed 5 ∧
    hash_seed 66 ≠ 66 ∧
    (VanillaSession.join ⟨10⟩ Gamemode.survival 66 16 10
        LevelGeneratorType.amplified).hashed_seed = hash_seed 66 := by
  have h := hash_seed_deterministic_and_hiding 5 5 rfl
  exact ⟨h.1, h.2.1, h.2.2 ⟨10⟩ Gamemode.survival 66 16 10 LevelGeneratorType.amplified⟩

/-! ## C2: scoped broadcast -/

theorem trace_count_aux (get : ClientId → Option Client) (ids : List ClientId)
    (id : ClientId) (c : Client) (hc : get id = some c) :
    ((ids.filterMap fun i => (get i).map fun cl => (i, cl)).count (id, c)) =
      ids.count id := by
  induction ids with
  | nil => rfl
  | cons j rest ih =>
    rcases hj : get j with _ | cj
    · have hji : ¬ id = j := by
        intro h
        rw [h, hj] at hc
        cases hc
      simp [List.filterMap_cons, hj, List.count_cons, ih, hji]
    · have hiff : ((id, c) = (j, cj)) ↔ (id = j) := by
        constructor
        · intro h
          exact congrArg Prod.fst h
        · intro h
          subst h
          rw [hj] at hc
          cases hc
          rfl
      by_cases hij : id = j
      · subst hij
        rw [hj] at hc
        injection hc with hcc
        subst hcc
        simp [List.filterMap_cons, hj, List.count_cons, ih]
      · simp [List.filterMap_cons, hj, List.count_cons, ih, hiff, hij]

theorem trace_not_mem_aux (get : ClientId → Option Client) (ids : List ClientId)
    (id : ClientId) (c : Client) (h : id ∉ ids ∨ get id = none) :
    (id, c) ∉ ids.filterMap fun i => (get i).map fun cl => (i, cl) := by
  intro hmem
  rw [List.mem_filterMap] at hmem
  obtain ⟨i, hi, hmap⟩ := hmem
  rcases hg : get i with _ | ci
  · rw [hg] at hmap
    cases hmap
  · rw [hg] at hmap
    simp only [Option.map_some', Option.some.injEq, Prod.mk.injEq] at hmap
    obtain ⟨h1, h2⟩ := hmap
    subst h1
    rcases h with h | h
    · exact h hi
    · rw [hg] at h
      cases h

theorem filterMap_get_eq_map_snd (get : ClientId → Option Client) (ids : List ClientId) :
    ids.filterMap get = (ids.filterMap fun i => (get i).map fun cl => (i, cl)).map Prod.snd := by
  induction ids with
  | nil => rfl
  | cons j rest ih =>
    rcases hj : get j with _ | cj <;> simp [List.filterMap_cons, hj, ih]

/-- C2: `broadcast_nearby_with` invokes the callback exactly once per client id
that is both in the subscription set of `(world, dimension, chunk position)`
and live in the registry, and never for any other id; a subscribed id with no
live connection is silently skipped (the trace simply omits it, no failure
occurs). -/
theorem broadcast_nearby_exactly_subscribed_live
    (srv : Server) (world : EntityWorld) (dim : EntityDimension) (pos : Position)
    (hset : (srv.chunk_subscriptions.subscriptions_for ⟨world, dim, pos.chunk⟩).Nodup)
    (id : ClientId) :
    (∀ c, srv.clients.get id = some c →
      (broadcastNearbyTrace srv world dim pos).count (id, c) =
        if id ∈ srv.chunk_subscriptions.subscriptions_for ⟨world, dim, pos.chunk⟩
        then 1 else 0) ∧
    (srv.clients.get id = none → ∀ c, (id, c) ∉ broadcastNearbyTrace srv world dim pos) ∧
    (id ∉ srv.chunk_subscriptions.subscriptions_for ⟨world, dim, pos.chunk⟩ →
      ∀ c, (id, c) ∉ broadcastNearbyTrace srv world dim pos) ∧
    srv.broadcast_nearby_with world dim pos =
      (broadcastNearbyTrace srv world dim pos).map Prod.snd := by
  refine ⟨?_, ?_, ?_, ?_⟩
  · intro c hc
    unfold broadcastNearbyTrace
    rw [trace_count_aux _ _ _ _ hc]
    by_cases hm : id ∈ srv.chunk_subscriptions.subscriptions_for ⟨world, dim, pos.chunk⟩
    · rw [if_pos hm]
      exact List.count_eq_one_of_mem hset hm
    · rw [if_neg hm]
      exact List.count_eq_zero_of_not_mem hm
  · intro hc c
    exact trace_not_mem_aux _ _ _ _ (Or.inr hc)
  · intro hm c
    exact trace_not_mem_aux _ _ _ _ (Or.inl hm)
  · exact filterMap_get_eq_map_snd _ _

theorem broadcast_nearby_exactly_subscribed_live_witness :
    (broadcastNearbyTrace
        ⟨⟨2, [(0, ⟨5, "amy", false, []⟩), (1, ⟨6, "bob", false, []⟩)]⟩, [],
          ⟨[(⟨0, "overworld", (2, 2)⟩, [0, 7])]⟩⟩
        0 "overworld" ⟨33, 40⟩).count (0, ⟨5, "amy", false, []⟩) = 1 ∧
    ((7 : ClientId), (⟨5, "amy", false, []⟩ : Client)) ∉ broadcastNearbyTrace
        ⟨⟨2, [(0, ⟨5, "amy", false, []⟩), (1, ⟨6, "bob", false, []⟩)]⟩, [],
          ⟨[(⟨0, "overworld", (2, 2)⟩, [0, 7])]⟩⟩
        0 "overworld" ⟨33, 40⟩ := by
  have h := broadcast_nearby_exactly_subscribed_live
    ⟨⟨2, [(0, ⟨5, "amy", false, []⟩), (1, ⟨6, "bob", false, []⟩)]⟩, [],
      ⟨[(⟨0, "overworld", (2, 2)⟩, [0, 7])]⟩⟩
    0 "overworld" ⟨33, 40⟩ (by decide) 0
  have h7 := broadcast_nearby_exactly_subscribed_live
    ⟨⟨2, [(0, ⟨5, "amy", false, []⟩), (1, ⟨6, "bob", false, []⟩)]⟩, [],
      ⟨[(⟨0, "overworld", (2, 2)⟩, [0, 7])]⟩⟩
    0 "overworld" ⟨33, 40⟩ (by decide) 7
  refine ⟨?_, ?_⟩
  · have := h.1 ⟨5, "amy", false, []⟩ (by decide)
    rw [this]
    decide
  · exact h7.2.1 (by decide) ⟨5, "amy", false, []⟩

/-! ## C3: accepting players with an identity conflict -/

theorem disconnectMatching_of_no_match (slots : List (ClientId × Client)) (u : Uuid)
    (reason : String) (h : ∀ pr ∈ slots, pr.2.uuid ≠ u) :
    disconnectMatching slots u reason = slots := by
  induction slots with
  | nil => rfl
  | cons hd rest ih =>
    obtain ⟨i, c⟩ := hd
    have hne : ¬ c.uuid = u := h (i, c) (List.mem_cons_self _ _)
    simp only [disconnectMatching, if_neg hne]
    exact congrArg _ (ih fun pr hpr => h pr (List.mem_cons_of_mem _ hpr))

theorem disconnectMatching_append_no_match_left (l1 l2 : List (ClientId × Client))
    (u : Uuid) (reason : String) (h : ∀ pr ∈ l1, pr.2.uuid ≠ u) :
    disconnectMatching (l1 ++ l2) u reason = l1 ++ disconnectMatching l2 u reason := by
  induction l1 with
  | nil => rfl
  | cons hd rest ih =>
    obtain ⟨i, c⟩ := hd
    have hne : ¬ c.uuid = u := h (i, c) (List.mem_cons_self _ _)
    simp only [List.cons_append, disconnectMatching, if_neg hne]
    exact congrArg _ (ih fun pr hpr => h pr (List.mem_cons_of_mem _ hpr))

/-- C3 (amended): draining two descriptors with the same identity from a
registry holding no connection with that identity yields: the returned ids are
the two freshly created ones; the registry holds the connection from the first
descriptor flagged disconnected with the forced-disconnect notice (delivered
while the replacement did not yet exist) and the connection from the second
descriptor live; so exactly one live connection for that identity remains —
the later one — and the channel is drained.  The no-pre-existing-connection
hypothesis is forced: with a connection for the identity already registered,
the second drain's first-match `find` re-targets that (by then stale,
already-disconnected) connection instead of the first drain's replacement, and
two live connections remain (see the counterexample below). -/
theorem accept_new_players_identity_conflict
    (srv : Server) (p1 p2 : NewPlayer)
    (hq : srv.new_players = [p1, p2])
    (hu : p1.uuid = p2.uuid)
    (hfresh : ∀ pr ∈ srv.clients.slots, pr.2.uuid ≠ p1.uuid) :
    (srv.accept_new_players).1 = [srv.clients.nextId, srv.clients.nextId + 1] ∧
    (srv.accept_new_players).2.clients.slots = srv.clients.slots ++
      [(srv.clients.nextId,
        Client.disconnect (Client.ofNewPlayer p1) "Logged in from another location!"),
       (srv.clients.nextId + 1, Client.ofNewPlayer p2)] ∧
    ((srv.accept_new_players).2.clients.slots.filter
        fun pr => pr.2.uuid == p1.uuid && !pr.2.disconnected) =
      [(srv.clients.nextId + 1, Client.ofNewPlayer p2)] ∧
    (srv.accept_new_players).2.new_players = [] := by
  obtain ⟨⟨n, slots⟩, np, subs⟩ := srv
  simp only at hq hfresh
  subst hq
  have h1 : disconnectMatching slots p1.uuid "Logged in from another location!" = slots :=
    disconnectMatching_of_no_match _ _ _ hfresh
  have h2 : disconnectMatching (slots ++ [(n, Client.ofNewPlayer p1)]) p2.uuid
      "Logged in from another location!" =
      slots ++ [(n, Client.disconnect (Client.ofNewPlayer p1)
        "Logged in from another location!")] := by
    rw [disconnectMatching_append_no_match_left _ _ _ _
      (fun pr hpr => hu ▸ hfresh pr hpr)]
    simp [disconnectMatching, Client.ofNewPlayer, hu]
  have hmain : (Server.accept_new_players ⟨⟨n, slots⟩, [p1, p2], subs⟩).1 = [n, n + 1] ∧
      (Server.accept_new_players ⟨⟨n, slots⟩, [p1, p2], subs⟩).2 =
        ⟨⟨n + 2, slots ++
          [(n, Client.disconnect (Client.ofNewPlayer p1) "Logged in from another location!"),
           (n + 1, Client.ofNewPlayer p2)]⟩, [], subs⟩ := by
    simp [Server.accept_new_players, acceptLoop, Server.create_client, Clients.insert,
      h1, h2]
  refine ⟨hmain.1, ?_, ?_, ?_⟩
  · rw [hmain.2]
  · rw [hmain.2]
    simp only [List.filter_append]
    have hnil : slots.filter (fun pr => pr.2.uuid == p1.uuid && !pr.2.disconnected) = [] := by
      rw [List.filter_eq_nil_iff]
      intro pr hpr
      simp [hfresh pr hpr]
    rw [hnil]
    simp [Client.disconnect, Client.ofNewPlayer, hu]
  · rw [hmain.2]

/-! ## C1, C5: the per-tick maintenance system

Lemmas tracking the index invariant through the three passes.
-/

theorem entities_in_nil (c : ChunkPosition) :
    ChunkEntities.entities_in_chunk ⟨[]⟩ c = [] := rfl

theorem count_update_ne (s : ChunkEntities) (e e2 : Entity) (old newc c : ChunkPosition)
    (hne : e2 ≠ e) :
    ((s.update e (some old) newc).entities_in_chunk c).count e2 =
      (s.entities_in_chunk c).count e2 := by
  rw [entities_in_update_some, List.count_append]
  by_cases h1 : c = old <;> by_cases h2 : c = newc
  · rw [if_pos h1, if_pos h2, List.count_erase_of_ne hne]
    simp [hne]
  · rw [if_pos h1, if_neg h2, List.count_erase_of_ne hne]
    simp
  · rw [if_neg h1, if_pos h2]
    simp [hne]
  · rw [if_neg h1, if_neg h2]
    simp

theorem mem_update_ne_iff (s : ChunkEntities) (e e2 : Entity)
    (old newc c : ChunkPosition) (hne : e2 ≠ e) :
    e2 ∈ (s.update e (some old) newc).entities_in_chunk c ↔
      e2 ∈ s.entities_in_chunk c := by
  rw [entities_in_update_some, List.mem_append]
  by_cases h1 : c = old <;> by_cases h2 : c = newc
  · rw [if_pos h1, if_pos h2]
    simp [List.mem_erase_of_ne hne, hne]
  · rw [if_pos h1, if_neg h2]
    simp [List.mem_erase_of_ne hne]
  · rw [if_neg h1, if_pos h2]
    simp [hne]
  · rw [if_neg h1, if_neg h2]
    simp

theorem count_update_none_ne (s : ChunkEntities) (e e2 : Entity) (newc c : ChunkPosition)
    (hne : e2 ≠ e) :
    ((s.update e none newc).entities_in_chunk c).count e2 =
      (s.entities_in_chunk c).count e2 := by
  rw [entities_in_update_none, List.count_append]
  by_cases h2 : c = newc <;> simp [h2, hne]

theorem count_remove_ne (s : ChunkEntities) (e e2 : Entity) (chunk c : ChunkPosition)
    (hne : e2 ≠ e) :
    ((s.remove_entity e chunk).entities_in_chunk c).count e2 =
      (s.entities_in_chunk c).count e2 := by
  rw [entities_in_remove]
  by_cases h1 : c = chunk <;> simp [h1, List.count_erase_of_ne hne]

theorem syncRec_position (rec : EntityRec) : (syncRec rec).position = rec.position := by
  obtain ⟨pos?, ch?, cev, rev⟩ := rec
  cases pos? <;> cases ch? <;> rfl

theorem syncRec_createEvent (rec : EntityRec) : (syncRec rec).createEvent = rec.createEvent := by
  obtain ⟨pos?, ch?, cev, rev⟩ := rec
  cases pos? <;> cases ch? <;> rfl

theorem syncRec_removeEvent (rec : EntityRec) : (syncRec rec).removeEvent = rec.removeEvent := by
  obtain ⟨pos?, ch?, cev, rev⟩ := rec
  cases pos? <;> cases ch? <;> rfl

/-- The first pass rewrites the world to its synced form, entity by entity. -/
theorem chunkCrossPass_world (ce : ChunkEntities) (w : World) :
    (chunkCrossPass ce w).2 = w.map fun er => (er.1, syncRec er.2) := by
  induction w generalizing ce with
  | nil => rfl
  | cons hd rest ih =>
    obtain ⟨e, rec⟩ := hd
    obtain ⟨pos?, ch?, cev, rev⟩ := rec
    cases ch? with
    | none => cases pos? <;> simp [chunkCrossPass, syncRec, ih]
    | some old =>
      cases pos? with
      | none => simp [chunkCrossPass, syncRec, ih]
      | some p =>
        by_cases hne : p.chunk = old
        · simp [chunkCrossPass, hne, syncRec, ih]
        · simp [chunkCrossPass, hne, syncRec, ih]

/-- After syncing, the cached chunk of every entity with a position is the
chunk of that position. -/
theorem synced_syncMap (w : World) : synced (w.map fun er => (er.1, syncRec er.2)) := by
  intro e rec hm p c hp hc
  rw [List.mem_map] at hm
  obtain ⟨⟨e0, r0⟩, _, heq⟩ := hm
  have hr : syncRec r0 = rec := congrArg Prod.snd heq
  obtain ⟨pos?, ch?, cev, rev⟩ := r0
  cases pos? with
  | none =>
    cases ch? <;>
      (rw [← hr] at hp; simp [syncRec] at hp)
  | some p0 =>
    cases ch? with
    | none =>
      rw [← hr] at hc
      simp [syncRec] at hc
    | some c0 =>
      rw [← hr] at hp hc
      simp [syncRec] at hp hc
      rw [← hp, ← hc]

theorem WFWorld_unique {w : World} (hw : WFWorld w) {e : Entity} {r1 r2 : EntityRec}
    (h1 : (e, r1) ∈ w) (h2 : (e, r2) ∈ w) : r1 = r2 := by
  induction w with
  | nil => cases h1
  | cons hd rest ih =>
    obtain ⟨e0, r0⟩ := hd
    have hw' : e0 ∉ rest.map Prod.fst ∧ WFWorld rest := by
      unfold WFWorld at hw
      rw [List.map_cons, List.nodup_cons] at hw
      exact hw
    rcases List.mem_cons.mp h1 with ha | ha
    · cases ha
      rcases List.mem_cons.mp h2 with hb | hb
      · injection hb with hh hh'
        exact hh'.symm
      · have hmm : e ∈ rest.map Prod.fst := List.mem_map.mpr ⟨(e, r2), hb, rfl⟩
        exact absurd hmm hw'.1
    · rcases List.mem_cons.mp h2 with hb | hb
      · cases hb
        have hmm : e ∈ rest.map Prod.fst := List.mem_map.mpr ⟨(e, r1), ha, rfl⟩
        exact absurd hmm hw'.1
      · exact ih hw'.2 ha hb

theorem mem_middle_ne_mp {pre rest : World} {e : Entity} {ra rb : EntityRec}
    {e' : Entity} {r' : EntityRec} (hne : e' ≠ e)
    (h : (e', r') ∈ pre ++ (e, ra) :: rest) : (e', r') ∈ pre ++ (e, rb) :: rest := by
  rcases List.mem_append.mp h with h | h
  · exact List.mem_append_left _ h
  · rcases List.mem_cons.mp h with h | h
    · exact absurd (congrArg Prod.fst h) hne
    · exact List.mem_append_right _ (List.mem_cons_of_mem _ h)

theorem WFWorld_middle {pre rest : World} {e : Entity} {ra : EntityRec} (rb : EntityRec)
    (h : WFWorld (pre ++ (e, ra) :: rest)) : WFWorld (pre ++ (e, rb) :: rest) := by
  unfold WFWorld at h ⊢
  have heq : (pre ++ (e, rb) :: rest).map Prod.fst =
      (pre ++ (e, ra) :: rest).map Prod.fst := by
    simp
  rw [heq]
  exact h

/-- Moving one entity from its old bucket to the bucket of its new chunk
preserves exactness and orphan-freedom of the index. -/
theorem moveStep_inv {ce : ChunkEntities} {pre rest : World} {e : Entity} {rec : EntityRec}
    {old newc : ChunkPosition}
    (hw : WFWorld (pre ++ (e, rec) :: rest))
    (hbe : bucketsExact ce (pre ++ (e, rec) :: rest))
    (hno : noOrphans ce (pre ++ (e, rec) :: rest))
    (hch : rec.chunk = some old) (hnew : newc ≠ old) :
    bucketsExact (ce.update e (some old) newc)
        (pre ++ (e, { rec with chunk := some newc }) :: rest) ∧
    noOrphans (ce.update e (some old) newc)
        (pre ++ (e, { rec with chunk := some newc }) :: rest) := by
  have hmemO : (e, rec) ∈ pre ++ (e, rec) :: rest :=
    List.mem_append_right _ (List.mem_cons_self _ _)
  have hmemN : (e, ({ rec with chunk := some newc } : EntityRec)) ∈
      pre ++ (e, { rec with chunk := some newc }) :: rest :=
    List.mem_append_right _ (List.mem_cons_self _ _)
  have heOld := hbe e rec old hmemO hch
  have heNotNew : e ∉ ce.entities_in_chunk newc := heOld.2 newc hnew
  constructor
  · intro e2 r2 c2 hm2 hc2
    by_cases he2 : e2 = e
    · subst he2
      have hr2 : r2 = { rec with chunk := some newc } :=
        WFWorld_unique (WFWorld_middle _ hw) hm2 hmemN
      rw [hr2] at hc2
      have hc2' : newc = c2 := by simpa using hc2
      subst hc2'
      constructor
      · rw [entities_in_update_some, if_neg hnew, if_pos rfl, List.count_append,
          List.count_eq_zero.mpr heNotNew]
        simp
      · intro c' hc'
        rw [entities_in_update_some]
        by_cases hco : c' = old
        · rw [if_pos hco, if_neg hc', List.append_nil]
          have h0 : ((ce.entities_in_chunk c').erase e2).count e2 = 0 := by
            rw [List.count_erase_self, hco, heOld.1]
          exact List.count_eq_zero.mp h0
        · rw [if_neg hco, if_neg hc', List.append_nil]
          exact heOld.2 c' hco
    · have hm2' : (e2, r2) ∈ pre ++ (e, rec) :: rest := mem_middle_ne_mp he2 hm2
      have h2 := hbe e2 r2 c2 hm2' hc2
      constructor
      · rw [count_update_ne _ _ _ _ _ _ he2]
        exact h2.1
      · intro c' hc'
        rw [mem_update_ne_iff _ _ _ _ _ _ he2]
        exact h2.2 c' hc'
  · intro e2 c2 hmem
    by_cases he2 : e2 = e
    · subst he2
      refine ⟨{ rec with chunk := some newc }, hmemN, ?_⟩
      rw [entities_in_update_some] at hmem
      rcases List.mem_append.mp hmem with hmem | hmem
      · by_cases hco : c2 = old
        · rw [if_pos hco] at hmem
          have h0 : ((ce.entities_in_chunk c2).erase e2).count e2 = 0 := by
            rw [List.count_erase_self, hco, heOld.1]
          exact absurd hmem (List.count_eq_zero.mp h0)
        · rw [if_neg hco] at hmem
          exact absurd hmem (heOld.2 c2 hco)
      · by_cases hcn : c2 = newc
        · rw [hcn]
        · rw [if_neg hcn] at hmem
          cases hmem
    · rw [mem_update_ne_iff _ _ _ _ _ _ he2] at hmem
      obtain ⟨r0, hr0, hc0⟩ := hno e2 c2 hmem
      exact ⟨r0, mem_middle_ne_mp he2 hr0, hc0⟩

/-- The chunk-cross pass preserves the index invariant relative to the evolving
world: walking the query with a processed prefix `pre`, exactness and
orphan-freedom hold of the resulting index and world. -/
theorem chunkCrossPass_inv (w : World) : ∀ (ce : ChunkEntities) (pre : World),
    WFWorld (pre ++ w) → bucketsExact ce (pre ++ w) → noOrphans ce (pre ++ w) →
    bucketsExact (chunkCrossPass ce w).1 (pre ++ (chunkCrossPass ce w).2) ∧
    noOrphans (chunkCrossPass ce w).1 (pre ++ (chunkCrossPass ce w).2) := by
  induction w with
  | nil =>
    intro ce pre hw hbe hno
    exact ⟨hbe, hno⟩
  | cons hd rest ih =>
    intro ce pre hw hbe hno
    obtain ⟨e, rec⟩ := hd
    obtain ⟨pos?, ch?, cev, rev⟩ := rec
    cases ch? with
    | none =>
      cases pos? with
      | none =>
        have hs1 : (chunkCrossPass ce ((e, ⟨none, none, cev, rev⟩) :: rest)).1 =
            (chunkCrossPass ce rest).1 := by
          simp [chunkCrossPass]
        have hs2 : (chunkCrossPass ce ((e, ⟨none, none, cev, rev⟩) :: rest)).2 =
            (e, ⟨none, none, cev, rev⟩) :: (chunkCrossPass ce rest).2 := by
          simp [chunkCrossPass]
        rw [hs1, hs2, List.append_cons]
        rw [List.append_cons] at hw hbe hno
        exact ih ce (pre ++ [(e, ⟨none, none, cev, rev⟩)]) hw hbe hno
      | some p =>
        have hs1 : (chunkCrossPass ce ((e, ⟨some p, none, cev, rev⟩) :: rest)).1 =
            (chunkCrossPass ce rest).1 := by
          simp [chunkCrossPass]
        have hs2 : (chunkCrossPass ce ((e, ⟨some p, none, cev, rev⟩) :: rest)).2 =
            (e, ⟨some p, none, cev, rev⟩) :: (chunkCrossPass ce rest).2 := by
          simp [chunkCrossPass]
        rw [hs1, hs2, List.append_cons]
        rw [List.append_cons] at hw hbe hno
        exact ih ce (pre ++ [(e, ⟨some p, none, cev, rev⟩)]) hw hbe hno
    | some old =>
      cases pos? with
      | none =>
        have hs1 : (chunkCrossPass ce ((e, ⟨none, some old, cev, rev⟩) :: rest)).1 =
            (chunkCrossPass ce rest).1 := by
          simp [chunkCrossPass]
        have hs2 : (chunkCrossPass ce ((e, ⟨none, some old, cev, rev⟩) :: rest)).2 =
            (e, ⟨none, some old, cev, rev⟩) :: (chunkCrossPass ce rest).2 := by
          simp [chunkCrossPass]
        rw [hs1, hs2, List.append_cons]
        rw [List.append_cons] at hw hbe hno
        exact ih ce (pre ++ [(e, ⟨none, some old, cev, rev⟩)]) hw hbe hno
      | some p =>
        by_cases heq : p.chunk = old
        · have hs1 : (chunkCrossPass ce ((e, ⟨some p, some old, cev, rev⟩) :: rest)).1 =
              (chunkCrossPass ce rest).1 := by
            simp [chunkCrossPass, heq]
          have hs2 : (chunkCrossPass ce ((e, ⟨some p, some old, cev, rev⟩) :: rest)).2 =
              (e, ⟨some p, some old, cev, rev⟩) :: (chunkCrossPass ce rest).2 := by
            simp [chunkCrossPass, heq]
          rw [hs1, hs2, List.append_cons]
          rw [List.append_cons] at hw hbe hno
          exact ih ce (pre ++ [(e, ⟨some p, some old, cev, rev⟩)]) hw hbe hno
        · have hs1 : (chunkCrossPass ce ((e, ⟨some p, some old, cev, rev⟩) :: rest)).1 =
              (chunkCrossPass (ce.update e (some old) p.chunk) rest).1 := by
            simp [chunkCrossPass, heq]
          have hs2 : (chunkCrossPass ce ((e, ⟨some p, some old, cev, rev⟩) :: rest)).2 =
              (e, ⟨some p, some p.chunk, cev, rev⟩) ::
                (chunkCrossPass (ce.update e (some old) p.chunk) rest).2 := by
            simp [chunkCrossPass, heq]
          rw [hs1, hs2, List.append_cons]
          have hmv := moveStep_inv hw hbe hno rfl heq
          rw [List.append_cons] at hmv
          have hw' := WFWorld_middle ⟨some p, some p.chunk, cev, rev⟩ hw
          rw [List.append_cons] at hw'
          exact ih (ce.update e (some old) p.chunk)
            (pre ++ [(e, ⟨some p, some p.chunk, cev, rev⟩)]) hw' hmv.1 hmv.2

theorem creationPass_no_create (w : World) : ∀ ce : ChunkEntities,
    (∀ er ∈ w, (er : Entity × EntityRec).2.createEvent = false) →
    creationPass ce w = (ce, []) := by
  induction w with
  | nil => intro ce h; rfl
  | cons hd rest ih =>
    intro ce h
    obtain ⟨e, rec⟩ := hd
    have hc : rec.createEvent = false := h (e, rec) (List.mem_cons_self _ _)
    obtain ⟨pos?, ch?, cev, rev⟩ := rec
    simp only at hc
    subst hc
    cases pos? <;>
      · simp only [creationPass]
        exact ih ce fun er her => h er (List.mem_cons_of_mem _ her)

theorem removalPass_no_remove (w : World) : ∀ ce : ChunkEntities,
    (∀ er ∈ w, (er : Entity × EntityRec).2.removeEvent = false) →
    removalPass ce w = ce := by
  induction w with
  | nil => intro ce h; rfl
  | cons hd rest ih =>
    intro ce h
    obtain ⟨e, rec⟩ := hd
    have hc : rec.removeEvent = false := h (e, rec) (List.mem_cons_self _ _)
    obtain ⟨pos?, ch?, cev, rev⟩ := rec
    simp only at hc
    subst hc
    cases ch? <;>
      · simp only [removalPass]
        exact ih ce fun er her => h er (List.mem_cons_of_mem _ her)

theorem insertChunk_nil (w : World) : insertChunkComponents w [] = w := by
  unfold insertChunkComponents
  have heq : (fun er : Entity × EntityRec => (er.1, applyInsertionsTo er.1 [] er.2)) =
      fun er => er := by
    funext er
    rfl
  rw [heq, List.map_id']

theorem eventFree_syncMap {w : World} (h : eventFree w) :
    eventFree (w.map fun er => (er.1, syncRec er.2)) := by
  intro e rec hm
  rw [List.mem_map] at hm
  obtain ⟨⟨e0, r0⟩, h0, heq⟩ := hm
  have he : e0 = e := congrArg Prod.fst heq
  have hr : syncRec r0 = rec := congrArg Prod.snd heq
  subst he
  have h00 := h e0 r0 h0
  rw [← hr, syncRec_createEvent, syncRec_removeEvent]
  exact h00

theorem WFWorld_syncMap {w : World} (h : WFWorld w) :
    WFWorld (w.map fun er => (er.1, syncRec er.2)) := by
  unfold WFWorld at h ⊢
  rw [List.map_map]
  exact h

/-- One event-free run of the maintenance system: the world keeps its keys,
loses no invariant, and ends synced (every cached chunk is the chunk of the
current position). -/
theorem update_chunk_entities_tick (g : Game)
    (hw : WFWorld g.world) (hbe : bucketsExact g.chunk_entities g.world)
    (hno : noOrphans g.chunk_entities g.world) (hev : eventFree g.world) :
    WFWorld (update_chunk_entities g).world ∧
    bucketsExact (update_chunk_entities g).chunk_entities (update_chunk_entities g).world ∧
    noOrphans (update_chunk_entities g).chunk_entities (update_chunk_entities g).world ∧
    eventFree (update_chunk_entities g).world ∧
    synced (update_chunk_entities g).world := by
  have hworld := chunkCrossPass_world g.chunk_entities g.world
  have hinv := chunkCrossPass_inv g.world g.chunk_entities []
    (by simpa using hw) (by simpa using hbe) (by simpa using hno)
  have hev1 : eventFree (chunkCrossPass g.chunk_entities g.world).2 := by
    rw [hworld]
    exact eventFree_syncMap hev
  have hcr : ∀ er ∈ (chunkCrossPass g.chunk_entities g.world).2,
      (er : Entity × EntityRec).2.createEvent = false := by
    intro er her
    obtain ⟨e, rec⟩ := er
    exact (hev1 e rec her).1
  have hrm : ∀ er ∈ (chunkCrossPass g.chunk_entities g.world).2,
      (er : Entity × EntityRec).2.removeEvent = false := by
    intro er her
    obtain ⟨e, rec⟩ := er
    exact (hev1 e rec her).2
  have hstep2 := creationPass_no_create _ (chunkCrossPass g.chunk_entities g.world).1 hcr
  have hstep5 := removalPass_no_remove _ (chunkCrossPass g.chunk_entities g.world).1 hrm
  have hg : update_chunk_entities g =
      ⟨(chunkCrossPass g.chunk_entities g.world).1,
       (chunkCrossPass g.chunk_entities g.world).2⟩ := by
    simp only [update_chunk_entities, hstep2, insertChunk_nil, hstep5]
  rw [hg]
  refine ⟨?_, ?_, ?_, ?_, ?_⟩
  · rw [hworld]
    exact WFWorld_syncMap hw
  · simpa using hinv.1
  · simpa using hinv.2
  · exact hev1
  · rw [hworld]
    exact synced_syncMap _

theorem applyPositions_keys (g : Game) (u : List (Entity × Position)) :
    (applyPositions g u).world.map Prod.fst = g.world.map Prod.fst := by
  unfold applyPositions
  generalize g.world = w
  induction w with
  | nil => rfl
  | cons hd rest ih =>
    obtain ⟨e, rec⟩ := hd
    cases h : lookupPos u e <;> simp [h, ih]

theorem applyPositions_mem {g : Game} {u : List (Entity × Position)} {e : Entity}
    {r' : EntityRec} (h : (e, r') ∈ (applyPositions g u).world) :
    ∃ r, (e, r) ∈ g.world ∧ r'.chunk = r.chunk ∧ r'.createEvent = r.createEvent ∧
      r'.removeEvent = r.removeEvent := by
  unfold applyPositions at h
  simp only [List.mem_map] at h
  obtain ⟨⟨e0, r0⟩, h0, heq⟩ := h
  cases hl : lookupPos u e0 <;> rw [hl] at heq
  · injection heq with h1 h2
    subst h1
    exact ⟨r0, h0, by rw [← h2], by rw [← h2], by rw [← h2]⟩
  · injection heq with h1 h2
    subst h1
    exact ⟨r0, h0, by rw [← h2], by rw [← h2], by rw [← h2]⟩

theorem applyPositions_mem_rev {g : Game} {u : List (Entity × Position)} {e : Entity}
    {r : EntityRec} (h : (e, r) ∈ g.world) :
    ∃ r', (e, r') ∈ (applyPositions g u).world ∧ r'.chunk = r.chunk := by
  unfold applyPositions
  simp only [List.mem_map]
  cases hl : lookupPos u e
  · exact ⟨r, ⟨(e, r), h, by rw [hl]⟩, rfl⟩
  · exact ⟨{ r with position := some _ }, ⟨(e, r), h, by rw [hl]⟩, rfl⟩

theorem applyPositions_inv {g : Game} (u : List (Entity × Position))
    (hw : WFWorld g.world) (hbe : bucketsExact g.chunk_entities g.world)
    (hno : noOrphans g.chunk_entities g.world) (hev : eventFree g.world) :
    WFWorld (applyPositions g u).world ∧
    bucketsExact (applyPositions g u).chunk_entities (applyPositions g u).world ∧
    noOrphans (applyPositions g u).chunk_entities (applyPositions g u).world ∧
    eventFree (applyPositions g u).world := by
  have hce : (applyPositions g u).chunk_entities = g.chunk_entities := rfl
  refine ⟨?_, ?_, ?_, ?_⟩
  · unfold WFWorld
    rw [applyPositions_keys]
    exact hw
  · intro e r' c hm hc
    obtain ⟨r, hr, hchunk, _, _⟩ := applyPositions_mem hm
    rw [hce]
    exact hbe e r c hr (hchunk ▸ hc)
  · intro e c hmem
    rw [hce] at hmem
    obtain ⟨r, hr, hcr⟩ := hno e c hmem
    obtain ⟨r', hr', hchunk⟩ := applyPositions_mem_rev (u := u) hr
    exact ⟨r', hr', hchunk.trans hcr⟩
  · intro e r' hm
    obtain ⟨r, hr, _, hce2, hre⟩ := applyPositions_mem hm
    have hh := hev e r hr
    exact ⟨hce2.trans hh.1, hre.trans hh.2⟩

theorem runTicks_inv (us : List (List (Entity × Position))) : ∀ g : Game,
    IndexInv g → eventFree g.world → synced g.world →
    IndexInv (runTicks g us) ∧ eventFree (runTicks g us).world ∧
      synced (runTicks g us).world := by
  induction us with
  | nil =>
    intro g h1 h2 h3
    exact ⟨h1, h2, h3⟩
  | cons u us ih =>
    intro g h1 h2 h3
    have hstep : runTicks g (u :: us) =
        runTicks (update_chunk_entities (applyPositions g u)) us := rfl
    rw [hstep]
    obtain ⟨ha1, ha2, ha3, ha4⟩ := applyPositions_inv u h1.1 h1.2.1 h1.2.2 h2
    obtain ⟨hb1, hb2, hb3, hb4, hb5⟩ := update_chunk_entities_tick _ ha1 ha2 ha3 ha4
    exact ih _ ⟨hb1, hb2, hb3⟩ hb4 hb5

/-- C1: starting from a consistent state (exact buckets, no orphans, unique
handles, cached chunks in sync, no pending events), after any sequence of
ticks — each an arbitrary batch of position writes followed by one run of the
maintenance system — every live entity holding a position and a cached chunk
appears exactly once in the bucket of precisely the chunk of its latest
reported position and in no other bucket; every bucket entry belongs to a live
entity (no orphans, no duplicates within or across buckets). -/
theorem chunk_entities_exact_bucket (g : Game) (us : List (List (Entity × Position)))
    (hInv : IndexInv g) (hEv : eventFree g.world) (hSync : synced g.world) :
    IndexInv (runTicks g us) ∧ synced (runTicks g us).world ∧
    ∀ e rec p c, (e, rec) ∈ (runTicks g us).world → rec.position = some p →
      rec.chunk = some c →
      c = p.chunk ∧
      (((runTicks g us).chunk_entities.entities_in_chunk p.chunk).count e = 1) ∧
      ∀ c', c' ≠ p.chunk → e ∉ (runTicks g us).chunk_entities.entities_in_chunk c' := by
  obtain ⟨hI, hE, hS⟩ := runTicks_inv us g hInv hEv hSync
  refine ⟨hI, hS, ?_⟩
  intro e rec p c hm hp hc
  have hcp : c = p.chunk := hS e rec hm p c hp hc
  subst hcp
  have hb := hI.2.1 e rec p.chunk hm hc
  exact ⟨rfl, hb.1, hb.2⟩

theorem chunk_entities_exact_bucket_witness :
    ((runTicks ⟨⟨[(((1 : Int), (0 : Int)), [1])]⟩,
        [(1, ⟨some ⟨20, 5⟩, some (1, 0), false, false⟩)]⟩
        [[(1, ⟨35, -3⟩)]]).chunk_entities.entities_in_chunk
          (Position.chunk ⟨35, -3⟩)).count 1 = 1 ∧
    (1 : Entity) ∉ (runTicks ⟨⟨[(((1 : Int), (0 : Int)), [1])]⟩,
        [(1, ⟨some ⟨20, 5⟩, some (1, 0), false, false⟩)]⟩
        [[(1, ⟨35, -3⟩)]]).chunk_entities.entities_in_chunk (1, 0) := by
  have hInv : IndexInv ⟨⟨[(((1 : Int), (0 : Int)), [1])]⟩,
      [(1, ⟨some ⟨20, 5⟩, some (1, 0), false, false⟩)]⟩ := by
    refine ⟨by unfold WFWorld; decide, ?_, ?_⟩
    · intro e rec c hm hc
      rw [List.mem_singleton] at hm
      injection hm with h1 h2
      subst h1
      subst h2
      have hc' : ((1 : Int), (0 : Int)) = c := by simpa using hc
      subst hc'
      constructor
      · decide
      · intro c' hne
        rw [entities_in_cons, if_neg fun hh => hne hh.symm]
        exact List.not_mem_nil 1
    · intro e c hmem
      rw [entities_in_cons] at hmem
      by_cases hcc : ((1 : Int), (0 : Int)) = c
      · rw [if_pos hcc] at hmem
        rw [List.mem_singleton] at hmem
        subst hmem
        exact ⟨⟨some ⟨20, 5⟩, some (1, 0), false, false⟩, List.mem_singleton_self _,
          by rw [← hcc]⟩
      · rw [if_neg hcc] at hmem
        exact absurd hmem (List.not_mem_nil e)
  have hEv : eventFree [(1, ⟨some ⟨20, 5⟩, some ((1 : Int), (0 : Int)), false, false⟩)] := by
    intro e rec hm
    rw [List.mem_singleton] at hm
    injection hm with h1 h2
    subst h2
    exact ⟨rfl, rfl⟩
  have hSync : synced [(1, ⟨some ⟨20, 5⟩, some ((1 : Int), (0 : Int)), false, false⟩)] := by
    intro e rec hm p c hp hc
    rw [List.mem_singleton] at hm
    injection hm with h1 h2
    subst h2
    have hp' : (⟨20, 5⟩ : Position) = p := by simpa using hp
    have hc' : ((1 : Int), (0 : Int)) = c := by simpa using hc
    subst hp'
    subst hc'
    decide
  have h := chunk_entities_exact_bucket ⟨⟨[(((1 : Int), (0 : Int)), [1])]⟩,
      [(1, ⟨some ⟨20, 5⟩, some (1, 0), false, false⟩)]⟩ [[(1, ⟨35, -3⟩)]] hInv hEv hSync
  have hm : ((1 : Entity), (⟨some ⟨35, -3⟩, some (2, -1), false, false⟩ : EntityRec)) ∈
      (runTicks ⟨⟨[(((1 : Int), (0 : Int)), [1])]⟩,
        [(1, ⟨some ⟨20, 5⟩, some (1, 0), false, false⟩)]⟩ [[(1, ⟨35, -3⟩)]]).world := by
    decide
  have h3 := h.2.2 1 ⟨some ⟨35, -3⟩, some (2, -1), false, false⟩ ⟨35, -3⟩ (2, -1) hm rfl rfl
  exact ⟨h3.2.1, h3.2.2 (1, 0) (by decide)⟩

/-- An entity the chunk-cross pass never touches keeps its bucket counts. -/
theorem chunkCrossPass_count_skip (w : World) : ∀ (ce : ChunkEntities) (e : Entity),
    (∀ r, (e, r) ∈ w → r.chunk = none ∨ r.position = none) →
    ∀ c, (((chunkCrossPass ce w).1).entities_in_chunk c).count e =
      (ce.entities_in_chunk c).count e := by
  induction w with
  | nil => intro ce e h c; rfl
  | cons hd rest ih =>
    intro ce e h c
    obtain ⟨e0, r0⟩ := hd
    obtain ⟨pos?, ch?, cev, rev⟩ := r0
    have htail : ∀ r, (e, r) ∈ rest → r.chunk = none ∨ r.position = none :=
      fun r hr => h r (List.mem_cons_of_mem _ hr)
    cases ch? with
    | none =>
      cases pos? with
      | none =>
        have hs1 : (chunkCrossPass ce ((e0, ⟨none, none, cev, rev⟩) :: rest)).1 =
            (chunkCrossPass ce rest).1 := by simp [chunkCrossPass]
        rw [hs1]
        exact ih ce e htail c
      | some p =>
        have hs1 : (chunkCrossPass ce ((e0, ⟨some p, none, cev, rev⟩) :: rest)).1 =
            (chunkCrossPass ce rest).1 := by simp [chunkCrossPass]
        rw [hs1]
        exact ih ce e htail c
    | some old =>
      cases pos? with
      | none =>
        have hs1 : (chunkCrossPass ce ((e0, ⟨none, some old, cev, rev⟩) :: rest)).1 =
            (chunkCrossPass ce rest).1 := by simp [chunkCrossPass]
        rw [hs1]
        exact ih ce e htail c
      | some p =>
        have hne : e0 ≠ e := by
          intro hh
          subst hh
          rcases h ⟨some p, some old, cev, rev⟩ (List.mem_cons_self _ _) with hx | hx <;>
            exact Option.noConfusion hx
        by_cases heq : p.chunk = old
        · have hs1 : (chunkCrossPass ce ((e0, ⟨some p, some old, cev, rev⟩) :: rest)).1 =
              (chunkCrossPass ce rest).1 := by simp [chunkCrossPass, heq]
          rw [hs1]
          exact ih ce e htail c
        · have hs1 : (chunkCrossPass ce ((e0, ⟨some p, some old, cev, rev⟩) :: rest)).1 =
              (chunkCrossPass (ce.update e0 (some old) p.chunk) rest).1 := by
            simp [chunkCrossPass, heq]
          rw [hs1, ih _ e htail c, count_update_ne _ _ _ _ _ _ (Ne.symm hne)]

/-- An entity with no pending eligible creation keeps its counts through the
creation pass and never appears among the collected insertions. -/
theorem creationPass_skip (w : World) : ∀ (ce : ChunkEntities) (e : Entity),
    (∀ r, (e, r) ∈ w → r.createEvent = false ∨ r.position = none) →
    (∀ c, (((creationPass ce w).1).entities_in_chunk c).count e =
      (ce.entities_in_chunk c).count e) ∧
    ∀ c, (e, c) ∉ (creationPass ce w).2 := by
  induction w with
  | nil => intro ce e h; exact ⟨fun c => rfl, fun c => List.not_mem_nil _⟩
  | cons hd rest ih =>
    intro ce e h
    obtain ⟨e0, r0⟩ := hd
    obtain ⟨pos?, ch?, cev, rev⟩ := r0
    have htail : ∀ r, (e, r) ∈ rest → r.createEvent = false ∨ r.position = none :=
      fun r hr => h r (List.mem_cons_of_mem _ hr)
    cases cev with
    | false =>
      cases pos? with
      | none =>
        simp only [creationPass]
        exact ih ce e htail
      | some p =>
        simp only [creationPass]
        exact ih ce e htail
    | true =>
      cases pos? with
      | none =>
        simp only [creationPass]
        exact ih ce e htail
      | some p =>
        have hne : e0 ≠ e := by
          intro hh
          subst hh
          rcases h ⟨some p, ch?, true, rev⟩ (List.mem_cons_self _ _) with hx | hx <;>
            first
              | exact Bool.noConfusion hx
              | exact Option.noConfusion hx
        have hs1 : (creationPass ce ((e0, ⟨some p, ch?, true, rev⟩) :: rest)).1 =
            (creationPass (ce.update e0 none p.chunk) rest).1 := by
          simp [creationPass]
        have hs2 : (creationPass ce ((e0, ⟨some p, ch?, true, rev⟩) :: rest)).2 =
            (e0, p.chunk) :: (creationPass (ce.update e0 none p.chunk) rest).2 := by
          simp [creationPass]
        constructor
        · intro c
          rw [hs1, (ih _ e htail).1 c, count_update_none_ne _ _ _ _ _ (Ne.symm hne)]
        · intro c hmem
          rw [hs2] at hmem
          rcases List.mem_cons.mp hmem with hmem | hmem
          · exact (Ne.symm hne) (congrArg Prod.fst hmem)
          · exact (ih _ e htail).2 c hmem

/-- A uniquely-keyed entity with a pending creation gains exactly one entry in
the bucket of its position's chunk, and its collected insertions all name that
chunk. -/
theorem creationPass_add (w : World) : ∀ (ce : ChunkEntities) (e : Entity)
    (rec : EntityRec) (p : Position), WFWorld w → (e, rec) ∈ w →
    rec.createEvent = true → rec.position = some p →
    (∀ c, (((creationPass ce w).1).entities_in_chunk c).count e =
      (ce.entities_in_chunk c).count e + (if c = p.chunk then 1 else 0)) ∧
    ((e, p.chunk) ∈ (creationPass ce w).2 ∧
      ∀ c, (e, c) ∈ (creationPass ce w).2 → c = p.chunk) := by
  induction w with
  | nil => intro ce e rec p hw hm hcr hp; cases hm
  | cons hd rest ih =>
    intro ce e rec p hw hm hcr hp
    obtain ⟨e0, r0⟩ := hd
    have hw' : e0 ∉ rest.map Prod.fst ∧ WFWorld rest := by
      unfold WFWorld at hw
      rw [List.map_cons, List.nodup_cons] at hw
      exact hw
    rcases List.mem_cons.mp hm with hmeq | hmr
    · cases hmeq
      obtain ⟨pos?, ch?, cev, rev⟩ := rec
      simp only at hcr hp
      subst hcr
      subst hp
      have hrest : ∀ r, (e, r) ∈ rest → r.createEvent = false ∨ r.position = none := by
        intro r hr
        exact absurd (List.mem_map.mpr ⟨(e, r), hr, rfl⟩) hw'.1
      have hs1 : (creationPass ce ((e, ⟨some p, ch?, true, rev⟩) :: rest)).1 =
          (creationPass (ce.update e none p.chunk) rest).1 := by
        simp [creationPass]
      have hs2 : (creationPass ce ((e, ⟨some p, ch?, true, rev⟩) :: rest)).2 =
          (e, p.chunk) :: (creationPass (ce.update e none p.chunk) rest).2 := by
        simp [creationPass]
      have hskip := creationPass_skip rest (ce.update e none p.chunk) e hrest
      refine ⟨?_, ?_, ?_⟩
      · intro c
        rw [hs1, hskip.1 c, entities_in_update_none, List.count_append]
        by_cases hc : c = p.chunk
        · rw [if_pos hc, if_pos hc]
          simp
        · rw [if_neg hc, if_neg hc]
          simp
      · rw [hs2]
        exact List.mem_cons_self _ _
      · intro c hmem
        rw [hs2] at hmem
        rcases List.mem_cons.mp hmem with hmem | hmem
        · exact congrArg Prod.snd hmem
        · exact absurd hmem (hskip.2 c)
    · have hne : e0 ≠ e := by
        intro hh
        exact absurd (List.mem_map.mpr ⟨(e, rec), hmr, rfl⟩) (hh ▸ hw'.1)
      obtain ⟨pos0, ch0, cev0, rev0⟩ := r0
      cases cev0 with
      | false =>
        cases pos0 with
        | none =>
          simp only [creationPass]
          exact ih ce e rec p hw'.2 hmr hcr hp
        | some p0 =>
          simp only [creationPass]
          exact ih ce e rec p hw'.2 hmr hcr hp
      | true =>
        cases pos0 with
        | none =>
          simp only [creationPass]
          exact ih ce e rec p hw'.2 hmr hcr hp
        | some p0 =>
          have hs1 : (creationPass ce ((e0, ⟨some p0, ch0, true, rev0⟩) :: rest)).1 =
              (creationPass (ce.update e0 none p0.chunk) rest).1 := by
            simp [creationPass]
          have hs2 : (creationPass ce ((e0, ⟨some p0, ch0, true, rev0⟩) :: rest)).2 =
              (e0, p0.chunk) :: (creationPass (ce.update e0 none p0.chunk) rest).2 := by
            simp [creationPass]
          have hihs := ih (ce.update e0 none p0.chunk) e rec p hw'.2 hmr hcr hp
          refine ⟨?_, ?_, ?_⟩
          · intro c
            rw [hs1, hihs.1 c, count_update_none_ne _ _ _ _ _ (Ne.symm hne)]
          · rw [hs2]
            exact List.mem_cons_of_mem _ hihs.2.1
          · intro c hmem
            rw [hs2] at hmem
            rcases List.mem_cons.mp hmem with hmem | hmem
            · exact absurd (congrArg Prod.fst hmem) (Ne.symm hne)
            · exact hihs.2.2 c hmem

/-- An entity with no pending eligible removal keeps its counts through the
removal pass. -/
theorem removalPass_skip (w : World) : ∀ (ce : ChunkEntities) (e : Entity),
    (∀ r, (e, r) ∈ w → r.removeEvent = false ∨ r.chunk = none) →
    ∀ c, (((removalPass ce w)).entities_in_chunk c).count e =
      (ce.entities_in_chunk c).count e := by
  induction w with
  | nil => intro ce e h c; rfl
  | cons hd rest ih =>
    intro ce e h c
    obtain ⟨e0, r0⟩ := hd
    obtain ⟨pos0, ch0, cev0, rev0⟩ := r0
    have htail : ∀ r, (e, r) ∈ rest → r.removeEvent = false ∨ r.chunk = none :=
      fun r hr => h r (List.mem_cons_of_mem _ hr)
    cases rev0 with
    | false =>
      cases ch0 with
      | none =>
        simp only [removalPass]
        exact ih ce e htail c
      | some c0 =>
        simp only [removalPass]
        exact ih ce e htail c
    | true =>
      cases ch0 with
      | none =>
        simp only [removalPass]
        exact ih ce e htail c
      | some c0 =>
        have hne : e0 ≠ e := by
          intro hh
          rcases h ⟨pos0, some c0, cev0, true⟩ (hh ▸ List.mem_cons_self _ _) with hx | hx <;>
            first
              | exact Bool.noConfusion hx
              | exact Option.noConfusion hx
        simp only [removalPass]
        rw [ih _ e htail c, count_remove_ne _ _ _ _ _ (Ne.symm hne)]

/-- A uniquely-keyed entity with a pending removal and cached chunk loses
exactly one entry from that chunk's bucket. -/
theorem removalPass_once (w : World) : ∀ (ce : ChunkEntities) (e : Entity)
    (rec : EntityRec) (cE : ChunkPosition), WFWorld w → (e, rec) ∈ w →
    rec.removeEvent = true → rec.chunk = some cE →
    ∀ c, (((removalPass ce w)).entities_in_chunk c).count e =
      (ce.entities_in_chunk c).count e - (if c = cE then 1 else 0) := by
  induction w with
  | nil => intro ce e rec cE hw hm; cases hm
  | cons hd rest ih =>
    intro ce e rec cE hw hm hrm hch c
    obtain ⟨e0, r0⟩ := hd
    have hw' : e0 ∉ rest.map Prod.fst ∧ WFWorld rest := by
      unfold WFWorld at hw
      rw [List.map_cons, List.nodup_cons] at hw
      exact hw
    rcases List.mem_cons.mp hm with hmeq | hmr
    · cases hmeq
      obtain ⟨pos?, ch?, cev, rev⟩ := rec
      simp only at hrm hch
      subst hrm
      subst hch
      have hrest : ∀ r, (e, r) ∈ rest → r.removeEvent = false ∨ r.chunk = none := by
        intro r hr
        exact absurd (List.mem_map.mpr ⟨(e, r), hr, rfl⟩) hw'.1
      simp only [removalPass]
      rw [removalPass_skip rest _ e hrest c, entities_in_remove]
      by_cases hc : c = cE
      · rw [if_pos hc, if_pos hc, List.count_erase_self]
      · rw [if_neg hc, if_neg hc]
        exact (Nat.sub_zero _).symm
    · have hne : e0 ≠ e := by
        intro hh
        exact absurd (List.mem_map.mpr ⟨(e, rec), hmr, rfl⟩) (hh ▸ hw'.1)
      obtain ⟨pos0, ch0, cev0, rev0⟩ := r0
      cases rev0 with
      | false =>
        cases ch0 with
        | none =>
          simp only [removalPass]
          exact ih ce e rec cE hw'.2 hmr hrm hch c
        | some c0 =>
          simp only [removalPass]
          exact ih ce e rec cE hw'.2 hmr hrm hch c
      | true =>
        cases ch0 with
        | none =>
          simp only [removalPass]
          exact ih ce e rec cE hw'.2 hmr hrm hch c
        | some c0 =>
          simp only [removalPass]
          rw [ih _ e rec cE hw'.2 hmr hrm hch c,
            count_remove_ne _ _ _ _ _ (Ne.symm hne)]

theorem applyInsertionsTo_removeEvent (e : Entity) (ins : List (Entity × ChunkPosition)) :
    ∀ rec : EntityRec, (applyInsertionsTo e ins rec).removeEvent = rec.removeEvent := by
  induction ins with
  | nil => intro rec; rfl
  | cons hd rest ih =>
    intro rec
    obtain ⟨e1, c1⟩ := hd
    by_cases h1 : e1 = e <;> simp [applyInsertionsTo, h1, ih]

theorem applyInsertionsTo_of_not_mem (e : Entity) (ins : List (Entity × ChunkPosition)) :
    ∀ rec : EntityRec, (∀ c, (e, c) ∉ ins) → applyInsertionsTo e ins rec = rec := by
  induction ins with
  | nil => intro rec h; rfl
  | cons hd rest ih =>
    intro rec h
    obtain ⟨e1, c1⟩ := hd
    have h1 : e1 ≠ e := by
      intro hh
      exact h c1 (hh ▸ List.mem_cons_self _ _)
    simp only [applyInsertionsTo, if_neg h1]
    exact ih rec fun c hc => h c (List.mem_cons_of_mem _ hc)

theorem applyInsertionsTo_chunk_of_mem (e : Entity) (ins : List (Entity × ChunkPosition)) :
    ∀ (rec : EntityRec) (cc : ChunkPosition), (e, cc) ∈ ins →
    (∀ c, (e, c) ∈ ins → c = cc) → (applyInsertionsTo e ins rec).chunk = some cc := by
  induction ins with
  | nil => intro rec cc hmem; cases hmem
  | cons hd rest ih =>
    intro rec cc hmem hall
    obtain ⟨e1, c1⟩ := hd
    by_cases h1 : e1 = e
    · have hc1 : c1 = cc := hall c1 (h1 ▸ List.mem_cons_self _ _)
      subst hc1
      simp only [applyInsertionsTo, if_pos h1]
      by_cases hrest : ∃ c, (e, c) ∈ rest
      · obtain ⟨c, hc⟩ := hrest
        have hcc := hall c (List.mem_cons_of_mem _ hc)
        rw [hcc] at hc
        exact ih _ c1 hc fun c' h' => hall c' (List.mem_cons_of_mem _ h')
      · push_neg at hrest
        rw [applyInsertionsTo_of_not_mem e rest _ hrest]
    · simp only [applyInsertionsTo, if_neg h1]
      rcases List.mem_cons.mp hmem with hmeq | hmr
      · exact absurd (congrArg Prod.fst hmeq) fun hh => h1 hh.symm
      · exact ih rec cc hmr fun c' h' => hall c' (List.mem_cons_of_mem _ h')

theorem syncRec_of_chunk_none {rec : EntityRec} (h : rec.chunk = none) :
    syncRec rec = rec := by
  obtain ⟨pos?, ch?, cev, rev⟩ := rec
  cases ch? with
  | none => cases pos? <;> rfl
  | some c => exact Option.noConfusion h

/-- C5: an entity carrying both this tick's creation and removal events (and a
position, but no cached chunk and no bucket entry yet, as holds for a freshly
spawned entity) leaves the index clean after one run of the maintenance
system: the creation half of the pass runs first, indexes it and hands it the
cached chunk, and the removal half then deletes exactly that entry. -/
theorem create_remove_same_tick_clean (g : Game) (e : Entity) (rec : EntityRec)
    (p : Position)
    (hw : WFWorld g.world) (hm : (e, rec) ∈ g.world)
    (hcr : rec.createEvent = true) (hrm : rec.removeEvent = true)
    (hch : rec.chunk = none) (hp : rec.position = some p)
    (h0 : ∀ c, e ∉ g.chunk_entities.entities_in_chunk c) :
    ∀ c, e ∉ (update_chunk_entities g).chunk_entities.entities_in_chunk c := by
  have hcount0 : ∀ c, (g.chunk_entities.entities_in_chunk c).count e = 0 :=
    fun c => List.count_eq_zero.mpr (h0 c)
  have hskip1 : ∀ r, (e, r) ∈ g.world → r.chunk = none ∨ r.position = none := by
    intro r hr
    have hre : r = rec := WFWorld_unique hw hr hm
    rw [hre]
    exact Or.inl hch
  have hc1 : ∀ c,
      (((chunkCrossPass g.chunk_entities g.world).1).entities_in_chunk c).count e = 0 :=
    fun c => by rw [chunkCrossPass_count_skip g.world g.chunk_entities e hskip1 c, hcount0]
  have hw1 : WFWorld (chunkCrossPass g.chunk_entities g.world).2 := by
    rw [chunkCrossPass_world]
    exact WFWorld_syncMap hw
  have hm1 : (e, rec) ∈ (chunkCrossPass g.chunk_entities g.world).2 := by
    rw [chunkCrossPass_world]
    exact List.mem_map.mpr ⟨(e, rec), hm, by rw [syncRec_of_chunk_none hch]⟩
  have hadd := creationPass_add (chunkCrossPass g.chunk_entities g.world).2
    (chunkCrossPass g.chunk_entities g.world).1 e rec p hw1 hm1 hcr hp
  have hc2 : ∀ c,
      (((creationPass (chunkCrossPass g.chunk_entities g.world).1
          (chunkCrossPass g.chunk_entities g.world).2).1).entities_in_chunk c).count e =
        (if c = p.chunk then 1 else 0) := by
    intro c
    rw [hadd.1 c, hc1 c, Nat.zero_add]
  have hm2 : (e, applyInsertionsTo e (creationPass (chunkCrossPass g.chunk_entities g.world).1
      (chunkCrossPass g.chunk_entities g.world).2).2 rec) ∈
      insertChunkComponents (chunkCrossPass g.chunk_entities g.world).2
        (creationPass (chunkCrossPass g.chunk_entities g.world).1
          (chunkCrossPass g.chunk_entities g.world).2).2 :=
    List.mem_map_of_mem _ hm1
  have hrec2chunk : (applyInsertionsTo e (creationPass (chunkCrossPass g.chunk_entities g.world).1
      (chunkCrossPass g.chunk_entities g.world).2).2 rec).chunk = some p.chunk :=
    applyInsertionsTo_chunk_of_mem e _ rec p.chunk hadd.2.1 hadd.2.2
  have hrec2rm : (applyInsertionsTo e (creationPass (chunkCrossPass g.chunk_entities g.world).1
      (chunkCrossPass g.chunk_entities g.world).2).2 rec).removeEvent = true := by
    rw [applyInsertionsTo_removeEvent]
    exact hrm
  have hw2 : WFWorld (insertChunkComponents (chunkCrossPass g.chunk_entities g.world).2
      (creationPass (chunkCrossPass g.chunk_entities g.world).1
        (chunkCrossPass g.chunk_entities g.world).2).2) := by
    unfold WFWorld insertChunkComponents
    rw [List.map_map]
    exact hw1
  have hfinal := removalPass_once
    (insertChunkComponents (chunkCrossPass g.chunk_entities g.world).2
      (creationPass (chunkCrossPass g.chunk_entities g.world).1
        (chunkCrossPass g.chunk_entities g.world).2).2)
    (creationPass (chunkCrossPass g.chunk_entities g.world).1
      (chunkCrossPass g.chunk_entities g.world).2).1
    e _ p.chunk hw2 hm2 hrec2rm hrec2chunk
  intro c
  have hdef : (update_chunk_entities g).chunk_entities =
      removalPass (creationPass (chunkCrossPass g.chunk_entities g.world).1
          (chunkCrossPass g.chunk_entities g.world).2).1
        (insertChunkComponents (chunkCrossPass g.chunk_entities g.world).2
          (creationPass (chunkCrossPass g.chunk_entities g.world).1
            (chunkCrossPass g.chunk_entities g.world).2).2) := rfl
  have hc3 : (((update_chunk_entities g).chunk_entities).entities_in_chunk c).count e = 0 := by
    rw [hdef, hfinal c, hc2 c]
    by_cases hcc : c = p.chunk
    · rw [if_pos hcc]
    · rw [if_neg hcc]
  exact List.count_eq_zero.mp (hc3)

theorem create_remove_same_tick_clean_witness :
    (1 : Entity) ∉ (update_chunk_entities
        ⟨⟨[]⟩, [(1, ⟨some ⟨5, 5⟩, none, true, true⟩)]⟩).chunk_entities.entities_in_chunk
        (0, 0) := by
  have h := create_remove_same_tick_clean ⟨⟨[]⟩, [(1, ⟨some ⟨5, 5⟩, none, true, true⟩)]⟩
    1 ⟨some ⟨5, 5⟩, none, true, true⟩ ⟨5, 5⟩ (by unfold WFWorld; decide) (by decide)
    rfl rfl rfl rfl (fun c => List.not_mem_nil 1)
  exact h (0, 0)

theorem accept_new_players_identity_conflict_witness :
    ((⟨⟨2, [(0, ⟨5, "eve", false, []⟩)]⟩, [⟨7, "alice"⟩, ⟨7, "bob"⟩],
        ⟨[]⟩⟩ : Server).accept_new_players).1 = [2, 2 + 1] ∧
    ((⟨⟨2, [(0, ⟨5, "eve", false, []⟩)]⟩, [⟨7, "alice"⟩, ⟨7, "bob"⟩],
        ⟨[]⟩⟩ : Server).accept_new_players).2.clients.slots =
      [(0, ⟨5, "eve", false, []⟩)] ++
        [(2, Client.disconnect (Client.ofNewPlayer ⟨7, "alice"⟩)
          "Logged in from another location!"),
         (2 + 1, Client.ofNewPlayer ⟨7, "bob"⟩)] ∧
    (((⟨⟨2, [(0, ⟨5, "eve", false, []⟩)]⟩, [⟨7, "alice"⟩, ⟨7, "bob"⟩],
        ⟨[]⟩⟩ : Server).accept_new_players).2.clients.slots.filter
          fun pr => pr.2.uuid == 7 && !pr.2.disconnected) =
      [(2 + 1, Client.ofNewPlayer ⟨7, "bob"⟩)] ∧
    ((⟨⟨2, [(0, ⟨5, "eve", false, []⟩)]⟩, [⟨7, "alice"⟩, ⟨7, "bob"⟩],
        ⟨[]⟩⟩ : Server).accept_new_players).2.new_players = [] :=
  accept_new_players_identity_conflict
    ⟨⟨2, [(0, ⟨5, "eve", false, []⟩)]⟩, [⟨7, "alice"⟩, ⟨7, "bob"⟩], ⟨[]⟩⟩
    ⟨7, "alice"⟩ ⟨7, "bob"⟩ rfl rfl (by decide)

/-- C3 counterexample: the claim fails without the fresh-identity premise.
With a live connection for uuid 7 already registered, draining two descriptors
for uuid 7 makes both passes of the first-match disconnect hit the same stale
connection, so afterwards the registry holds two live connections for that
identity, not exactly one — the earlier drained descriptor's connection was
never disconnected. -/
theorem accept_new_players_stale_match_counterexample :
    (((⟨⟨1, [(0, ⟨7, "eve", false, []⟩)]⟩, [⟨7, "alice"⟩, ⟨7, "bob"⟩],
        ⟨[]⟩⟩ : Server).accept_new_players).2.clients.slots.filter
          fun pr => pr.2.uuid == 7 && !pr.2.disconnected).length = 2 := by
  decide
